import Mathlib

/-!
# The key/value accumulator of `cpp-maps-English.cpp`

A shallow embedding of the single `main` of the repository and the properties
of its command loop.

* `int` is a 32-bit signed integer.  Values are carried in `Int`; the one
  arithmetic operation of the program (`mp[s]+=m`) is `intAdd`, which reduces
  the exact sum into the `int` range (two's-complement wrap-around, explicit
  `% 2^32`).  Signed overflow is undefined in C++; every statement below that
  speaks of an exact sum says so through `isInt`.
* `map<string,int> mp` is a partial function from keys to values
  (`Ledger`); the program never iterates over the map, so this is all that
  it can observe.  `count`, `insert` and `index` (`operator[]`) are the three
  members the program calls.
* `cin` is the list of the whitespace-delimited tokens still to be read plus
  the stream's fail flag; `cout` is the list of the lines written, each line
  being the one integer printed before `endl`.
-/

namespace CppMaps

/-! ## `int` -/

/-- Smallest value of a 32-bit `int`. -/
def INT_MIN : Int := -2147483648

/-- Largest value of a 32-bit `int`. -/
def INT_MAX : Int := 2147483647

/-- The integers an `int` variable can hold. -/
def isInt (v : Int) : Prop := INT_MIN ≤ v ∧ v ≤ INT_MAX

instance (v : Int) : Decidable (isInt v) := by
  unfold isInt; infer_instance

/-- Reduction of an exact integer into the `int` range modulo `2^32`. -/
def wrapInt (v : Int) : Int := (v + 2147483648) % 4294967296 - 2147483648

/-- The `+` of two `int`s as performed by `+=`. -/
def intAdd (a b : Int) : Int := wrapInt (a + b)

/-! ## `map<string,int>` -/

/-- The ledger `mp`: the value stored for each key that is present. -/
abbrev Ledger := String → Option Int

/-- The map `mp` as declared: no key is present. -/
def Ledger.empty : Ledger := fun _ => none

/-- Overwrite (or create) the entry of `s`. -/
def Ledger.store (mp : Ledger) (s : String) (v : Int) : Ledger :=
  fun j => if j = s then some v else mp j

/-- The member `mp.count(s)`: 1 when `s` is present and 0 otherwise. -/
def Ledger.count (mp : Ledger) (s : String) : Nat :=
  match mp s with
  | some _ => 1
  | none => 0

/-- The member `mp.insert(pair<string,int>(s,m))`: adds the entry when `s` is
absent and leaves the map alone when `s` is present. -/
def Ledger.insert (mp : Ledger) (s : String) (m : Int) : Ledger :=
  match mp s with
  | some _ => mp
  | none => mp.store s m

/-- The member `mp[s]`: when `s` is absent it is first inserted with the
value-initialised `int` 0; the result is the map after the access and the
value the returned reference designates. -/
def Ledger.index (mp : Ledger) (s : String) : Ledger × Int :=
  match mp s with
  | some v => (mp, v)
  | none => (mp.store s 0, 0)

/-! ## The three branches of the loop body -/

/-- Lines 22-27, the branch `t==1` once `s` and `m` are read:
`if(mp.count(s)) mp[s]+=m; else mp.insert(pair<string,int>(s,m));`.
The result is the map and the lines written. -/
def accumulate (mp : Ledger) (s : String) (m : Int) : Ledger × List Int :=
  if mp.count s ≠ 0 then
    (((mp.index s).1).store s (intAdd (mp.index s).2 m), [])
  else
    (mp.insert s m, [])

/-- Line 32, the branch `t==2` once `s` is read: `mp[s]=0;`. -/
def reset (mp : Ledger) (s : String) : Ledger × List Int :=
  (((mp.index s).1).store s 0, [])

/-- Line 37, the last branch once `s` is read: `cout<<mp[s]<<endl;`. -/
def query (mp : Ledger) (s : String) : Ledger × List Int :=
  ((mp.index s).1, [(mp.index s).2])

/-- The `if(t==1) … else if(t==2) … else …` of lines 19-38 on the values
`t`, `s`, `m` the variables hold after the extractions of the iteration. -/
def exec (mp : Ledger) (t : Int) (s : String) (m : Int) : Ledger × List Int :=
  if t = 1 then accumulate mp s m
  else if t = 2 then reset mp s
  else query mp s

/-- One command as the loop body sees it: the tag, the key and, for tag 1,
the amount (`amount` is not read by the other two branches). -/
structure Cmd where
  tag : Int
  key : String
  amount : Int
deriving DecidableEq

/-- The command loop on commands already read: the map is threaded through,
the lines written are appended in order. -/
def run (mp : Ledger) : List Cmd → Ledger × List Int
  | [] => (mp, [])
  | c :: cs =>
    let r := exec mp c.tag c.key c.amount
    let r2 := run r.1 cs
    (r2.1, r.2 ++ r2.2)

/-! ## `cin` -/

/-- The standard input: the whitespace-delimited tokens not yet read (a
token of which a prefix was read stays, shortened, at the head) and the
`failbit`, which the program never clears. -/
structure IStream where
  toks : List String
  fail : Bool
deriving DecidableEq

/-- The digits read off the front of the characters, accumulated in base
ten, and the characters left. -/
def scanDigits : List Char → Nat → Nat × List Char
  | [], acc => (acc, [])
  | c :: cs, acc =>
    if c.isDigit then scanDigits cs (acc * 10 + (c.toNat - 48)) else (acc, c :: cs)

/-- The characters from which the sign has been taken off, and whether the
sign was `-`. -/
def scanSign : List Char → Bool × List Char
  | c :: cs => if c = '-' then (true, cs) else if c = '+' then (false, cs) else (false, c :: cs)
  | [] => (false, [])

/-- What `num_get` accumulates for an `int` in base ten: an optional sign
and then at least one digit; the value read and the characters of the token
that stay in the stream.  `none` when no digit stands there. -/
def scanInt (cs : List Char) : Option (Int × List Char) :=
  match (scanSign cs).2 with
  | [] => none
  | c :: ds =>
    if c.isDigit then
      let r := scanDigits (c :: ds) 0
      some (if (scanSign cs).1 then -(r.1 : Int) else (r.1 : Int), r.2)
    else none

/-- The read `cin>>x` for `int x`.  With the stream failed or at its end the
variable keeps its value; a token that starts with no number stores 0 and a
number outside the `int` range stores the nearest bound, both raising
`failbit`. -/
def IStream.getInt (cin : IStream) (x : Int) : IStream × Int :=
  if cin.fail then (cin, x)
  else
    match cin.toks with
    | [] => (⟨[], true⟩, x)
    | tok :: rest =>
      match scanInt tok.data with
      | none => (⟨tok :: rest, true⟩, 0)
      | some (v, rem) =>
        let toks := if rem = [] then rest else String.mk rem :: rest
        if v < INT_MIN then (⟨toks, true⟩, INT_MIN)
        else if INT_MAX < v then (⟨toks, true⟩, INT_MAX)
        else (⟨toks, false⟩, v)

/-- The read `cin>>x` for `string x`: the next token, whole.  With the
stream failed or at its end the variable keeps its value. -/
def IStream.getStr (cin : IStream) (x : String) : IStream × String :=
  if cin.fail then (cin, x)
  else
    match cin.toks with
    | [] => (⟨[], true⟩, x)
    | tok :: rest => (⟨rest, false⟩, tok)

/-! ## `main` -/

/-- The variables of `main` that the loop reads and writes, with the two
streams. -/
structure Vars where
  cin : IStream
  cout : List Int
  m : Int
  t : Int
  s : String
  mp : Ledger

/-- Lines 18-38, one iteration of the `for` loop. -/
def body (σ : Vars) : Vars :=
  let rt := σ.cin.getInt σ.t
  if rt.2 = 1 then
    let rs := rt.1.getStr σ.s
    let rm := rs.1.getInt σ.m
    let e := accumulate σ.mp rs.2 rm.2
    { cin := rm.1, cout := σ.cout ++ e.2, m := rm.2, t := rt.2, s := rs.2, mp := e.1 }
  else if rt.2 = 2 then
    let rs := rt.1.getStr σ.s
    let e := reset σ.mp rs.2
    { cin := rs.1, cout := σ.cout ++ e.2, m := σ.m, t := rt.2, s := rs.2, mp := e.1 }
  else
    let rs := rt.1.getStr σ.s
    let e := query σ.mp rs.2
    { cin := rs.1, cout := σ.cout ++ e.2, m := σ.m, t := rt.2, s := rs.2, mp := e.1 }

/-- The loop `for(int i=0;i<n;i++)` run for the given number of iterations. -/
def loop : Nat → Vars → Vars
  | 0, σ => σ
  | k + 1, σ => loop k (body σ)

/-- The program: `cin>>n`, the loop, `return 0`.  The result is the exit
code and the final variables.  `n₀`, `m₀` and `t₀` are the indeterminate
values the uninitialised `n`, `m` and `t` start with; `s` starts empty and
`mp` starts empty.  The loop counter `i` runs from 0 while `i<n`, that is
`n.toNat` iterations. -/
def main (n₀ m₀ t₀ : Int) (input : List String) : Int × Vars :=
  let rn := (IStream.mk input false).getInt n₀
  (0, loop rn.2.toNat
    { cin := rn.1, cout := [], m := m₀, t := t₀, s := "", mp := Ledger.empty })

/-! ## The input grammar of the specification -/

/-- A token that is, whole, the decimal numeral of an `int`. -/
def intTok (tok : String) : Option Int :=
  match scanInt tok.data with
  | some (v, []) => if isInt v then some v else none
  | _ => none

/-- The grammar of section 6 of the specification: `k` commands off the
front of the tokens, each `<tag> <key> <amount>` for tag 1 and `<tag> <key>`
for any other tag; the commands read and the tokens after them, `none` when
the tokens depart from the grammar before `k` commands are complete. -/
def readCmds : Nat → List String → Option (List Cmd × List String)
  | 0, toks => some ([], toks)
  | _ + 1, [] => none
  | k + 1, tg :: toks =>
    match intTok tg with
    | none => none
    | some t =>
      if t = 1 then
        match toks with
        | key :: amt :: toks2 =>
          match intTok amt with
          | none => none
          | some a =>
            match readCmds k toks2 with
            | none => none
            | some (cs, rest) => some (⟨t, key, a⟩ :: cs, rest)
        | _ => none
      else
        match toks with
        | key :: toks2 =>
          match readCmds k toks2 with
          | none => none
          | some (cs, rest) => some (⟨t, key, 0⟩ :: cs, rest)
        | [] => none

/-! ## Vocabulary of the properties -/

/-- A command of the third kind: its tag is neither 1 nor 2. -/
def Cmd.isQuery (c : Cmd) : Bool := decide (c.tag ≠ 1 ∧ c.tag ≠ 2)

/-- The exact sum of the amounts of the accumulate commands on `k`. -/
def sumOn (k : String) : List Cmd → Int
  | [] => 0
  | c :: cs => if c.tag = 1 ∧ c.key = k then c.amount + sumOn k cs else sumOn k cs

/-- The value a read of `k` observes: the stored value, 0 for an absent key. -/
def Ledger.value (mp : Ledger) (k : String) : Int := (mp k).getD 0

/-! ## The pure-read variant of the design notes -/

/-- The query of the variant program of section 9 of the specification: the
value of `s` is written, 0 for an absent key, and the map is left as it is,
nothing being inserted. -/
def queryPure (mp : Ledger) (s : String) : Ledger × List Int :=
  match mp s with
  | some v => (mp, [v])
  | none => (mp, [0])

/-- The step of the variant program: `exec` with `queryPure` in the last
branch, all else identical. -/
def execPure (mp : Ledger) (t : Int) (s : String) (m : Int) : Ledger × List Int :=
  if t = 1 then accumulate mp s m
  else if t = 2 then reset mp s
  else queryPure mp s

/-- The command loop of the variant program. -/
def runPure (mp : Ledger) : List Cmd → Ledger × List Int
  | [] => (mp, [])
  | c :: cs =>
    let r := execPure mp c.tag c.key c.amount
    let r2 := runPure r.1 cs
    (r2.1, r.2 ++ r2.2)

/-! ## Vocabulary of the closed form -/

/-- The command is a reset (tag 2) of `k`. -/
def Cmd.isResetOf (c : Cmd) (k : String) : Bool := decide (c.tag = 2 ∧ c.key = k)

/-- The commands that come after the last reset of `k`; all the commands
when none of them resets `k`. -/
def afterLastReset (k : String) : List Cmd → List Cmd
  | [] => []
  | c :: cs =>
    if cs.any (fun d => d.isResetOf k) then afterLastReset k cs
    else if c.isResetOf k then cs
    else c :: cs

/-! ## Vocabulary of key independence -/

/-- The lines of a run, each paired with the key of the command that wrote
it. -/
def keyedOutput (mp : Ledger) : List Cmd → List (String × Int)
  | [] => []
  | c :: cs =>
    (exec mp c.tag c.key c.amount).2.map (fun v => (c.key, v)) ++
      keyedOutput (exec mp c.tag c.key c.amount).1 cs

/-- The values the queries of `k` write in a run, in order. -/
def emittedFor (k : String) (mp : Ledger) (cmds : List Cmd) : List Int :=
  ((keyedOutput mp cmds).filter (fun p => decide (p.1 = k))).map Prod.snd

/-! ## Basic facts -/

theorem wrapInt_of_isInt {v : Int} (h : isInt v) : wrapInt v = v := by
  unfold isInt INT_MIN INT_MAX at h
  unfold wrapInt
  omega

theorem isInt_wrapInt (v : Int) : isInt (wrapInt v) := by
  unfold isInt INT_MIN INT_MAX wrapInt
  omega

theorem accumulate_snd (L : Ledger) (k : String) (a : Int) : (accumulate L k a).2 = [] := by
  unfold accumulate
  split <;> rfl

theorem accumulate_fst_apply (L : Ledger) (k : String) (a : Int) (j : String) :
    (accumulate L k a).1 j =
      if j = k then some (match L k with | some v => intAdd v a | none => a) else L j := by
  unfold accumulate Ledger.count Ledger.index Ledger.insert Ledger.store
  by_cases hj : j = k
  · subst hj
    cases h : L j <;> simp [h]
  · cases h : L k <;> simp [h, hj]

theorem reset_fst_apply (L : Ledger) (k j : String) :
    (reset L k).1 j = if j = k then some 0 else L j := by
  unfold reset Ledger.index Ledger.store
  by_cases hj : j = k
  · subst hj
    cases h : L j <;> simp [h]
  · cases h : L k <;> simp [h, hj]

theorem query_fst_apply (L : Ledger) (k j : String) :
    (query L k).1 j = if j = k then some (L.value k) else L j := by
  unfold query Ledger.index Ledger.store Ledger.value
  by_cases hj : j = k
  · subst hj
    cases h : L j <;> simp [h]
  · cases h : L k <;> simp [h, hj]

theorem query_snd (L : Ledger) (k : String) : (query L k).2 = [L.value k] := by
  unfold query Ledger.index Ledger.value
  cases h : L k <;> simp [h]

theorem exec_one (L : Ledger) (k : String) (m : Int) : exec L 1 k m = accumulate L k m := by
  simp [exec]

theorem exec_two (L : Ledger) (k : String) (m : Int) : exec L 2 k m = reset L k := by
  simp [exec]

theorem exec_other (L : Ledger) (t : Int) (k : String) (m : Int) (h1 : t ≠ 1) (h2 : t ≠ 2) :
    exec L t k m = query L k := by
  simp [exec, h1, h2]

theorem run_nil (L : Ledger) : run L [] = (L, []) := rfl

theorem run_cons (L : Ledger) (c : Cmd) (cs : List Cmd) :
    run L (c :: cs) =
      ((run (exec L c.tag c.key c.amount).1 cs).1,
        (exec L c.tag c.key c.amount).2 ++ (run (exec L c.tag c.key c.amount).1 cs).2) := rfl

theorem run_append (L : Ledger) (c1 c2 : List Cmd) :
    run L (c1 ++ c2) = ((run (run L c1).1 c2).1, (run L c1).2 ++ (run (run L c1).1 c2).2) := by
  induction c1 generalizing L with
  | nil => simp [run_nil]
  | cons c cs ih => simp [run_cons, ih, List.append_assoc]

theorem sumOn_cons (k : String) (c : Cmd) (cs : List Cmd) :
    sumOn k (c :: cs) = (if c.tag = 1 ∧ c.key = k then c.amount else 0) + sumOn k cs := by
  show (if c.tag = 1 ∧ c.key = k then c.amount + sumOn k cs else sumOn k cs) = _
  split <;> simp

/-- The value read at `k` after one command that is no reset of `k` and whose
addition, if it is one on `k`, does not overflow. -/
theorem exec_value (L : Ledger) (t : Int) (key : String) (a : Int) (k : String)
    (hreset : t = 2 → key ≠ k) (hov : t = 1 → key = k → isInt (L.value k + a)) :
    (exec L t key a).1.value k = L.value k + (if t = 1 ∧ key = k then a else 0) := by
  by_cases h1 : t = 1
  · subst h1
    rw [exec_one]
    unfold Ledger.value
    rw [accumulate_fst_apply]
    by_cases hk : key = k
    · subst hk
      have ho := hov rfl rfl
      unfold Ledger.value at ho
      cases h : L key with
      | none => simp
      | some v =>
        rw [h] at ho
        simp only [Option.getD_some] at ho
        simp [intAdd, wrapInt_of_isInt ho]
    · have hk2 : ¬ k = key := fun e => hk e.symm
      simp [hk, hk2]
  · by_cases h2 : t = 2
    · subst h2
      have hk : ¬ k = key := fun e => hreset rfl e.symm
      rw [exec_two]
      unfold Ledger.value
      rw [reset_fst_apply]
      simp [hk]
    · rw [exec_other L t key a h1 h2]
      unfold Ledger.value
      rw [query_fst_apply]
      by_cases hk : k = key
      · subst hk
        simp [h1, Ledger.value]
      · simp [hk, h1]

/-- The value read at `k` after commands none of which resets `k`, when no
addition on `k` overflows. -/
theorem run_value_noReset (k : String) (cmds : List Cmd) :
    ∀ (L : Ledger), (∀ c ∈ cmds, c.tag = 2 → c.key ≠ k) →
      (∀ i, i ≤ cmds.length → isInt (L.value k + sumOn k (cmds.take i))) →
      (run L cmds).1.value k = L.value k + sumOn k cmds := by
  induction cmds with
  | nil => intro L _ _; simp [run_nil, sumOn]
  | cons c cs ih =>
    intro L hreset hov
    have hstep : (exec L c.tag c.key c.amount).1.value k =
        L.value k + (if c.tag = 1 ∧ c.key = k then c.amount else 0) := by
      apply exec_value
      · exact hreset c (List.mem_cons_self _ _)
      · intro h1 hk
        have h := hov 1 (by simp)
        simpa [sumOn, h1, hk] using h
    rw [run_cons, sumOn_cons]
    simp only
    rw [ih (exec L c.tag c.key c.amount).1
      (fun d hd => hreset d (List.mem_cons_of_mem _ hd))
      (by
        intro i hi
        have h := hov (i + 1) (by simpa using hi)
        rw [List.take_succ_cons, sumOn_cons] at h
        rw [hstep]
        rw [add_assoc]
        exact h)]
    rw [hstep, add_assoc]


theorem run_snd_length (cmds : List Cmd) :
    ∀ L : Ledger, (run L cmds).2.length = cmds.countP Cmd.isQuery := by
  induction cmds with
  | nil => intro L; simp [run_nil]
  | cons c cs ih =>
    intro L
    rw [run_cons]
    simp only [List.length_append, ih]
    by_cases h1 : c.tag = 1
    · have hq : c.isQuery = false := by simp [Cmd.isQuery, h1]
      rw [h1, exec_one, accumulate_snd, List.countP_cons_of_neg _ _ (by simp [hq])]
      simp
    · by_cases h2 : c.tag = 2
      · have hq : c.isQuery = false := by simp [Cmd.isQuery, h2]
        rw [h2, exec_two, List.countP_cons_of_neg _ _ (by simp [hq])]
        simp [reset]
      · have hq : c.isQuery = true := by simp [Cmd.isQuery, h1, h2]
        rw [exec_other L c.tag c.key c.amount h1 h2, query_snd,
          List.countP_cons_of_pos _ _ hq]
        simp [Nat.add_comm]

/-! ## The program on a well-formed token stream -/

theorem getInt_of_intTok {tok : String} {v : Int} (h : intTok tok = some v)
    (rest : List String) (x : Int) :
    IStream.getInt ⟨tok :: rest, false⟩ x = (⟨rest, false⟩, v) := by
  unfold intTok at h
  unfold IStream.getInt
  cases hs : scanInt tok.data with
  | none => simp [hs] at h
  | some p =>
    obtain ⟨w, rem⟩ := p
    rw [hs] at h
    cases rem with
    | cons r rs => simp at h
    | nil =>
      simp only at h
      by_cases hw : isInt w
      · rw [if_pos hw] at h
        have hv : w = v := Option.some.inj h
        subst hv
        have h1 : ¬ w < INT_MIN := not_lt.mpr hw.1
        have h2 : ¬ INT_MAX < w := not_lt.mpr hw.2
        simp [hs, h1, h2]
      · rw [if_neg hw] at h
        exact absurd h (by simp)

theorem getStr_cons (tok : String) (rest : List String) (x : String) :
    IStream.getStr ⟨tok :: rest, false⟩ x = (⟨rest, false⟩, tok) := by
  simp [IStream.getStr]

theorem isInt_of_intTok {tok : String} {v : Int} (h : intTok tok = some v) : isInt v := by
  unfold intTok at h
  split at h
  · split at h
    · rename_i hw
      have hv := Option.some.inj h
      rw [← hv]
      exact hw
    · exact absurd h (by simp)
  · exact absurd h (by simp)

/-- The loop on a stream whose front is `k` well-formed commands: it reads
exactly those and does to the map and the output what `run` does. -/
theorem loop_wellformed (k : Nat) :
    ∀ (toks : List String) (cmds : List Cmd) (rest : List String) (σ : Vars),
      σ.cin = ⟨toks, false⟩ → readCmds k toks = some (cmds, rest) →
      (loop k σ).cin = ⟨rest, false⟩ ∧ (loop k σ).cout = σ.cout ++ (run σ.mp cmds).2 ∧
        (loop k σ).mp = (run σ.mp cmds).1 ∧ cmds.length = k := by
  induction k with
  | zero =>
    intro toks cmds rest σ hcin h
    simp only [readCmds, Option.some.injEq, Prod.mk.injEq] at h
    obtain ⟨h1, h2⟩ := h
    subst h1 h2
    simp [loop, hcin, run_nil]
  | succ k ih =>
    intro toks cmds rest σ hcin h
    cases toks with
    | nil => simp [readCmds] at h
    | cons tg toks =>
      simp only [readCmds] at h
      cases htg : intTok tg with
      | none => simp [htg] at h
      | some t =>
        rw [htg] at h
        simp only at h
        have hgt : σ.cin.getInt σ.t = (⟨toks, false⟩, t) := by
          rw [hcin]; exact getInt_of_intTok htg toks σ.t
        by_cases h1 : t = 1
        · rw [if_pos h1] at h
          cases toks with
          | nil => simp at h
          | cons key toks =>
            cases toks with
            | nil => simp at h
            | cons amt toks =>
              simp only at h
              cases ham : intTok amt with
              | none => simp [ham] at h
              | some a =>
                rw [ham] at h
                simp only at h
                cases hr : readCmds k toks with
                | none => simp [hr] at h
                | some p =>
                  obtain ⟨cs, rest2⟩ := p
                  rw [hr] at h
                  simp only [Option.some.injEq, Prod.mk.injEq] at h
                  obtain ⟨hc, hrest⟩ := h
                  subst hc hrest
                  have hb : body σ =
                      { cin := ⟨toks, false⟩, cout := σ.cout ++ (accumulate σ.mp key a).2,
                        m := a, t := t, s := key, mp := (accumulate σ.mp key a).1 } := by
                    unfold body
                    simp only [hgt, if_pos h1, getStr_cons, getInt_of_intTok ham]
                  have hi := ih toks cs rest2 (body σ) (by rw [hb]) hr
                  rw [hb] at hi
                  simp only at hi
                  obtain ⟨i1, i2, i3, i4⟩ := hi
                  show (loop k (body σ)).cin = _ ∧ (loop k (body σ)).cout = _ ∧
                    (loop k (body σ)).mp = _ ∧ _
                  rw [hb, run_cons]
                  simp only [h1, exec_one] at i1 i2 i3 ⊢
                  refine ⟨i1, ?_, i3, by simp [i4]⟩
                  rw [i2, List.append_assoc]
        · rw [if_neg h1] at h
          cases toks with
          | nil => simp at h
          | cons key toks =>
            simp only at h
            cases hr : readCmds k toks with
            | none => simp [hr] at h
            | some p =>
              obtain ⟨cs, rest2⟩ := p
              rw [hr] at h
              simp only [Option.some.injEq, Prod.mk.injEq] at h
              obtain ⟨hc, hrest⟩ := h
              subst hc hrest
              have hb : body σ =
                  { cin := ⟨toks, false⟩, cout := σ.cout ++ (exec σ.mp t key 0).2,
                    m := σ.m, t := t, s := key, mp := (exec σ.mp t key 0).1 } := by
                unfold body
                by_cases h2 : t = 2
                · subst h2
                  simp [hgt, getStr_cons, exec_two]
                · simp only [hgt, if_neg h1, if_neg h2, getStr_cons,
                    exec_other σ.mp t key 0 h1 h2]
              have hi := ih toks cs rest2 (body σ) (by rw [hb]) hr
              rw [hb] at hi
              simp only at hi
              obtain ⟨i1, i2, i3, i4⟩ := hi
              show (loop k (body σ)).cin = _ ∧ (loop k (body σ)).cout = _ ∧
                (loop k (body σ)).mp = _ ∧ _
              rw [hb, run_cons]
              simp only
              refine ⟨i1, ?_, i3, by simp [i4]⟩
              rw [i2, List.append_assoc]

theorem readCmds_append (k : Nat) :
    ∀ (toks : List String) (cmds : List Cmd) (rest extra : List String),
      readCmds k toks = some (cmds, rest) →
      readCmds k (toks ++ extra) = some (cmds, rest ++ extra) := by
  induction k with
  | zero =>
    intro toks cmds rest extra h
    simp only [readCmds, Option.some.injEq, Prod.mk.injEq] at h
    obtain ⟨h1, h2⟩ := h
    subst h1 h2
    simp [readCmds]
  | succ k ih =>
    intro toks cmds rest extra h
    cases toks with
    | nil => simp [readCmds] at h
    | cons tg toks =>
      simp only [readCmds] at h
      cases htg : intTok tg with
      | none => simp [htg] at h
      | some t =>
        rw [htg] at h
        simp only at h
        by_cases h1 : t = 1
        · rw [if_pos h1] at h
          cases toks with
          | nil => simp at h
          | cons key toks =>
            cases toks with
            | nil => simp at h
            | cons amt toks =>
              simp only at h
              cases ham : intTok amt with
              | none => simp [ham] at h
              | some a =>
                rw [ham] at h
                simp only at h
                cases hr : readCmds k toks with
                | none => simp [hr] at h
                | some p =>
                  obtain ⟨cs, rest2⟩ := p
                  rw [hr] at h
                  simp only [Option.some.injEq, Prod.mk.injEq] at h
                  obtain ⟨hc, hrest⟩ := h
                  subst hc hrest
                  show readCmds (k + 1) (tg :: key :: amt :: (toks ++ extra)) = _
                  simp only [readCmds, htg, if_pos h1, ham, ih toks cs rest2 extra hr]
        · rw [if_neg h1] at h
          cases toks with
          | nil => simp at h
          | cons key toks =>
            simp only at h
            cases hr : readCmds k toks with
            | none => simp [hr] at h
            | some p =>
              obtain ⟨cs, rest2⟩ := p
              rw [hr] at h
              simp only [Option.some.injEq, Prod.mk.injEq] at h
              obtain ⟨hc, hrest⟩ := h
              subst hc hrest
              show readCmds (k + 1) (tg :: key :: (toks ++ extra)) = _
              simp only [readCmds, htg, if_neg h1, ih toks cs rest2 extra hr]

/-- The program on a count token and a stream whose front is that many
well-formed commands. -/
theorem main_wellformed (n₀ m₀ t₀ : Int) (cnt : String) (N : Nat) (toks : List String)
    (cmds : List Cmd) (rest : List String)
    (hcnt : intTok cnt = some (N : Int)) (hwf : readCmds N toks = some (cmds, rest)) :
    (main n₀ m₀ t₀ (cnt :: toks)).1 = 0 ∧
      (main n₀ m₀ t₀ (cnt :: toks)).2.cin = ⟨rest, false⟩ ∧
      (main n₀ m₀ t₀ (cnt :: toks)).2.cout = (run Ledger.empty cmds).2 ∧
      (main n₀ m₀ t₀ (cnt :: toks)).2.mp = (run Ledger.empty cmds).1 ∧
      cmds.length = N := by
  have hm : main n₀ m₀ t₀ (cnt :: toks) =
      (0, loop N { cin := ⟨toks, false⟩, cout := [], m := m₀, t := t₀, s := "",
                   mp := Ledger.empty }) := by
    unfold main
    simp only [getInt_of_intTok hcnt, Int.toNat_ofNat]
  have hl := loop_wellformed N toks cmds rest
    { cin := ⟨toks, false⟩, cout := [], m := m₀, t := t₀, s := "", mp := Ledger.empty }
    rfl hwf
  simp only [List.nil_append] at hl
  rw [hm]
  exact ⟨rfl, hl⟩

/-! ## The program on a stream that fails -/

theorem getInt_stale (cin : IStream) (x : Int) (h : cin.fail = true ∨ cin.toks = []) :
    cin.getInt x = (⟨cin.toks, true⟩, x) := by
  obtain ⟨toks, fail⟩ := cin
  unfold IStream.getInt
  cases fail with
  | true => simp
  | false =>
    have ht : toks = [] := by simpa using h
    subst ht
    simp

theorem getStr_stale (cin : IStream) (x : String) (h : cin.fail = true ∨ cin.toks = []) :
    cin.getStr x = (⟨cin.toks, true⟩, x) := by
  obtain ⟨toks, fail⟩ := cin
  unfold IStream.getStr
  cases fail with
  | true => simp
  | false =>
    have ht : toks = [] := by simpa using h
    subst ht
    simp

/-- An iteration on a stream that has failed or is at its end: nothing is
read, the branch of the stale `t` runs on the stale `s` and `m`. -/
theorem body_stale (σ : Vars) (h : σ.cin.fail = true ∨ σ.cin.toks = []) :
    body σ = { cin := ⟨σ.cin.toks, true⟩, cout := σ.cout ++ (exec σ.mp σ.t σ.s σ.m).2,
               m := σ.m, t := σ.t, s := σ.s, mp := (exec σ.mp σ.t σ.s σ.m).1 } := by
  have hf : ∀ toks : List String,
      (IStream.mk toks true).fail = true ∨ (IStream.mk toks true).toks = [] :=
    fun _ => Or.inl rfl
  unfold body
  simp only [getInt_stale σ.cin σ.t h, getStr_stale _ σ.s (hf _), getInt_stale _ σ.m (hf _)]
  by_cases h1 : σ.t = 1
  · simp [h1, exec_one]
  · by_cases h2 : σ.t = 2
    · simp [h2, exec_two]
    · simp [h1, h2, exec_other σ.mp σ.t σ.s σ.m h1 h2]

theorem loop_stale (k : Nat) :
    ∀ σ : Vars, (σ.cin.fail = true ∨ σ.cin.toks = []) →
      loop (k + 1) σ =
        { cin := ⟨σ.cin.toks, true⟩,
          cout := σ.cout ++ (run σ.mp (List.replicate (k + 1) ⟨σ.t, σ.s, σ.m⟩)).2,
          m := σ.m, t := σ.t, s := σ.s,
          mp := (run σ.mp (List.replicate (k + 1) ⟨σ.t, σ.s, σ.m⟩)).1 } := by
  induction k with
  | zero =>
    intro σ h
    show body σ = _
    rw [body_stale σ h]
    simp [List.replicate, run_cons, run_nil]
  | succ k ih =>
    intro σ h
    show loop (k + 1) (body σ) = _
    rw [body_stale σ h, ih _ (Or.inl rfl)]
    simp only [List.replicate_succ, run_cons, List.append_assoc]

theorem body_cout (σ : Vars) : ∃ more : List Int, (body σ).cout = σ.cout ++ more := by
  unfold body
  dsimp only
  split
  · exact ⟨_, rfl⟩
  · split
    · exact ⟨_, rfl⟩
    · exact ⟨_, rfl⟩

theorem loop_cout (k : Nat) :
    ∀ σ : Vars, ∃ more : List Int, (loop k σ).cout = σ.cout ++ more := by
  induction k with
  | zero => intro σ; exact ⟨[], by simp [loop]⟩
  | succ k ih =>
    intro σ
    obtain ⟨m1, h1⟩ := body_cout σ
    obtain ⟨m2, h2⟩ := ih (body σ)
    exact ⟨m1 ++ m2, by show (loop k (body σ)).cout = _; rw [h2, h1, List.append_assoc]⟩

theorem loop_add (a : Nat) : ∀ (b : Nat) (σ : Vars), loop (a + b) σ = loop b (loop a σ) := by
  induction a with
  | zero => intro b σ; simp [loop]
  | succ a ih =>
    intro b σ
    rw [Nat.add_right_comm]
    show loop (a + b) (body σ) = loop b (loop a (body σ))
    exact ih b (body σ)

/-! ## Presence of keys -/

theorem exec_isSome (L : Ledger) (t : Int) (k : String) (m : Int) (j : String) :
    ((exec L t k m).1 j).isSome = true ↔ ((L j).isSome = true ∨ j = k) := by
  by_cases h1 : t = 1
  · subst h1
    rw [exec_one, accumulate_fst_apply]
    by_cases hj : j = k <;> simp [hj]
  · by_cases h2 : t = 2
    · subst h2
      rw [exec_two, reset_fst_apply]
      by_cases hj : j = k <;> simp [hj]
    · rw [exec_other L t k m h1 h2, query_fst_apply]
      by_cases hj : j = k <;> simp [hj]

theorem run_isSome (cmds : List Cmd) (j : String) :
    ∀ L : Ledger, ((run L cmds).1 j).isSome = true ↔
      ((L j).isSome = true ∨ ∃ c ∈ cmds, c.key = j) := by
  induction cmds with
  | nil => intro L; simp [run_nil]
  | cons c cs ih =>
    intro L
    rw [run_cons]
    simp only
    rw [ih, exec_isSome]
    constructor
    · rintro ((h | h) | ⟨d, hd, hk⟩)
      · exact Or.inl h
      · exact Or.inr ⟨c, List.mem_cons_self _ _, h.symm⟩
      · exact Or.inr ⟨d, List.mem_cons_of_mem _ hd, hk⟩
    · rintro (h | ⟨d, hd, hk⟩)
      · exact Or.inl (Or.inl h)
      · rcases List.mem_cons.mp hd with e | e
        · subst e
          exact Or.inl (Or.inr hk.symm)
        · exact Or.inr ⟨d, e, hk⟩

theorem exec_isInt (L : Ledger) (t : Int) (k : String) (m : Int)
    (hL : ∀ j v, L j = some v → isInt v) (hm : isInt m) :
    ∀ j v, (exec L t k m).1 j = some v → isInt v := by
  have h0 : isInt 0 := by decide
  intro j v
  by_cases h1 : t = 1
  · subst h1
    rw [exec_one, accumulate_fst_apply]
    by_cases hj : j = k
    · rw [if_pos hj]
      intro h
      have hv := Option.some.inj h
      rw [← hv]
      cases hk : L k with
      | none => exact hm
      | some w => exact isInt_wrapInt _
    · rw [if_neg hj]
      exact hL j v
  · by_cases h2 : t = 2
    · subst h2
      rw [exec_two, reset_fst_apply]
      by_cases hj : j = k
      · rw [if_pos hj]
        intro h
        rw [← Option.some.inj h]
        exact h0
      · rw [if_neg hj]
        exact hL j v
    · rw [exec_other L t k m h1 h2, query_fst_apply]
      by_cases hj : j = k
      · rw [if_pos hj]
        intro h
        rw [← Option.some.inj h]
        unfold Ledger.value
        cases hk : L k with
        | none => exact h0
        | some w => exact hL k w hk
      · rw [if_neg hj]
        exact hL j v

theorem run_isInt (cmds : List Cmd) :
    ∀ L : Ledger, (∀ j v, L j = some v → isInt v) → (∀ c ∈ cmds, isInt c.amount) →
      ∀ j v, (run L cmds).1 j = some v → isInt v := by
  induction cmds with
  | nil => intro L hL _; simpa [run_nil] using hL
  | cons c cs ih =>
    intro L hL hc
    rw [run_cons]
    exact ih _ (exec_isInt L c.tag c.key c.amount hL (hc c (List.mem_cons_self _ _)))
      (fun d hd => hc d (List.mem_cons_of_mem _ hd))

/-! ## The properties -/

/-- C1 (P1, accumulate is additive): from the empty ledger, after any command
sequence in which no reset (tag 2) names `k` and in which no addition on `k`
overflows (every running sum of the amounts accumulated on `k` is an `int`),
a query of `k` issued at the end (any tag other than 1 and 2) writes, after
the lines of the sequence, exactly one line: the exact sum of the amounts of
all accumulate commands on `k`. -/
theorem accumulate_additive (k : String) (cmds : List Cmd) (t m : Int)
    (hreset : ∀ c ∈ cmds, c.tag = 2 → c.key ≠ k)
    (hov : ∀ i, i ≤ cmds.length → isInt (sumOn k (cmds.take i)))
    (ht1 : t ≠ 1) (ht2 : t ≠ 2) :
    (run Ledger.empty (cmds ++ [⟨t, k, m⟩])).2 =
      (run Ledger.empty cmds).2 ++ [sumOn k cmds] := by
  have hv := run_value_noReset k cmds Ledger.empty hreset
    (by intro i hi; simpa [Ledger.value, Ledger.empty] using hov i hi)
  rw [run_append]
  simp only [run_cons, run_nil, List.append_nil]
  rw [exec_other _ t k m ht1 ht2, query_snd, hv]
  simp [Ledger.value, Ledger.empty]

/-- Scenario A: `1 apple 5`, `1 apple 3`, `3 apple` writes the single line 8. -/
theorem accumulate_additive_witness :
    (∀ c ∈ ([⟨1, "apple", 5⟩, ⟨1, "apple", 3⟩] : List Cmd), c.tag = 2 → c.key ≠ "apple") ∧
    (∀ i, i ≤ ([⟨1, "apple", 5⟩, ⟨1, "apple", 3⟩] : List Cmd).length →
      isInt (sumOn "apple" (([⟨1, "apple", 5⟩, ⟨1, "apple", 3⟩] : List Cmd).take i))) ∧
    (run Ledger.empty ([⟨1, "apple", 5⟩, ⟨1, "apple", 3⟩] ++ [⟨3, "apple", 0⟩])).2 =
      (run Ledger.empty [⟨1, "apple", 5⟩, ⟨1, "apple", 3⟩]).2 ++
        [sumOn "apple" [⟨1, "apple", 5⟩, ⟨1, "apple", 3⟩]] ∧
    (run Ledger.empty [⟨1, "apple", 5⟩, ⟨1, "apple", 3⟩, ⟨3, "apple", 0⟩]).2 = [8] ∧
    (main 0 0 0 ["3", "1", "apple", "5", "1", "apple", "3", "3", "apple"]).2.cout = [8] :=
  ⟨by decide, by decide,
    accumulate_additive "apple" [⟨1, "apple", 5⟩, ⟨1, "apple", 3⟩] 3 0
      (by decide) (by decide) (by decide) (by decide),
    by decide, by decide⟩

/-- C2 (P2, reset zeroes): for every ledger and every key `k`, present or
absent, a reset command (tag 2) on `k` leaves `k` present with value 0, and a
query of `k` (any tag other than 1 and 2) issued immediately afterwards
writes exactly the line 0. -/
theorem reset_zeroes (L : Ledger) (k : String) (m t m2 : Int) (ht1 : t ≠ 1) (ht2 : t ≠ 2) :
    (exec L 2 k m).1 k = some 0 ∧ (exec (exec L 2 k m).1 t k m2).2 = [0] ∧
      (run L [⟨2, k, m⟩, ⟨t, k, m2⟩]).2 = [0] := by
  have hk : (exec L 2 k m).1 k = some 0 := by
    rw [exec_two, reset_fst_apply]
    simp
  have hq : (exec (exec L 2 k m).1 t k m2).2 = [0] := by
    rw [exec_other _ t k m2 ht1 ht2, query_snd]
    simp [Ledger.value, hk]
  refine ⟨hk, hq, ?_⟩
  simp only [run_cons, run_nil, List.append_nil]
  rw [hq, exec_two]
  rfl

/-- Scenario B: `2 banana` on the empty ledger, then `3 banana`, writes 0. -/
theorem reset_zeroes_witness :
    (3 : Int) ≠ 1 ∧ (3 : Int) ≠ 2 ∧
    (exec Ledger.empty 2 "banana" 0).1 "banana" = some 0 ∧
    (exec (exec Ledger.empty 2 "banana" 0).1 3 "banana" 0).2 = [0] ∧
    (run Ledger.empty [⟨2, "banana", 0⟩, ⟨3, "banana", 0⟩]).2 = [0] ∧
    (main 0 0 0 ["2", "2", "banana", "3", "banana"]).2.cout = [0] :=
  ⟨by decide, by decide,
    (reset_zeroes Ledger.empty "banana" 0 3 0 (by decide) (by decide)).1,
    (reset_zeroes Ledger.empty "banana" 0 3 0 (by decide) (by decide)).2.1,
    (reset_zeroes Ledger.empty "banana" 0 3 0 (by decide) (by decide)).2.2,
    by decide⟩

/-- C3 (P3, query materializes default): for every ledger and every key `k`
absent from it, a query of `k` (any tag other than 1 and 2) writes exactly
the line 0 and leaves `k` present with value 0; the ledger it leaves is the
very ledger a reset of `k` leaves from the same state; and an accumulate of
an `int` amount `a` on `k` right after it stores exactly `a`. -/
theorem query_materializes_default (L : Ledger) (k : String) (t m m2 a : Int)
    (habs : L k = none) (ht1 : t ≠ 1) (ht2 : t ≠ 2) (ha : isInt a) :
    (exec L t k m).2 = [0] ∧ (exec L t k m).1 k = some 0 ∧
      (exec L t k m).1 = (exec L 2 k m2).1 ∧
      (exec (exec L t k m).1 1 k a).1 k = some a ∧
      (exec (exec L t k m).1 1 k a).2 = [] := by
  have hk : (exec L t k m).1 k = some 0 := by
    rw [exec_other L t k m ht1 ht2, query_fst_apply]
    simp [Ledger.value, habs]
  refine ⟨?_, hk, ?_, ?_, ?_⟩
  · rw [exec_other L t k m ht1 ht2, query_snd]
    simp [Ledger.value, habs]
  · funext j
    rw [exec_other L t k m ht1 ht2, exec_two, query_fst_apply, reset_fst_apply]
    simp [Ledger.value, habs]
  · rw [exec_one, accumulate_fst_apply, hk]
    simp [intAdd, wrapInt_of_isInt ha]
  · rw [exec_one, accumulate_snd]

/-- Scenario C: `3 cherry`, `1 cherry 4`, `3 cherry` writes 0 and then 4. -/
theorem query_materializes_default_witness :
    Ledger.empty "cherry" = none ∧ (3 : Int) ≠ 1 ∧ (3 : Int) ≠ 2 ∧ isInt 4 ∧
    ((exec Ledger.empty 3 "cherry" 0).2 = [0] ∧
      (exec Ledger.empty 3 "cherry" 0).1 "cherry" = some 0 ∧
      (exec Ledger.empty 3 "cherry" 0).1 = (exec Ledger.empty 2 "cherry" 0).1 ∧
      (exec (exec Ledger.empty 3 "cherry" 0).1 1 "cherry" 4).1 "cherry" = some 4 ∧
      (exec (exec Ledger.empty 3 "cherry" 0).1 1 "cherry" 4).2 = []) ∧
    (run Ledger.empty [⟨3, "cherry", 0⟩, ⟨1, "cherry", 4⟩, ⟨3, "cherry", 0⟩]).2 = [0, 4] ∧
    (main 0 0 0 ["3", "3", "cherry", "1", "cherry", "4", "3", "cherry"]).2.cout = [0, 4] :=
  ⟨rfl, by decide, by decide, by decide,
    query_materializes_default Ledger.empty "cherry" 3 0 0 4 rfl (by decide) (by decide)
      (by decide),
    by decide, by decide⟩

/-- C4, the claim fails: after `1 a 2147483647` from the empty ledger the key
`a` is present with value 2147483647; the accumulate command `1 a 1` then
overflows the `+=` and leaves `a` present with -2147483648, not with
2147483647 + 1, which no `int` holds.  Both amounts are `int`s, and the
program reaches this state on the tokens `2 1 a 2147483647 1 a 1`. -/
theorem accumulate_overflow_counterexample :
    (run Ledger.empty [⟨1, "a", 2147483647⟩]).1 "a" = some 2147483647 ∧
    isInt 2147483647 ∧ isInt 1 ∧ ¬ isInt (2147483647 + 1) ∧
    (exec (run Ledger.empty [⟨1, "a", 2147483647⟩]).1 1 "a" 1).1 "a" = some (-2147483648) ∧
    (exec (run Ledger.empty [⟨1, "a", 2147483647⟩]).1 1 "a" 1).1 "a" ≠
      some (2147483647 + 1) ∧
    (main 0 0 0 ["2", "1", "a", "2147483647", "1", "a", "1"]).2.mp "a" =
      some (-2147483648) := by
  decide

/-- C4 as amended (Accumulate case split): for every ledger, key `k` and
amount `a`, the accumulate command (tag 1) writes no line; when `k` is
present with value `v` it leaves `k` present with the `int` sum of `v` and
`a`, which is the exact `v + a` whenever `v + a` is an `int`; when `k` is
absent it leaves `k` present with value exactly `a`. -/
theorem accumulate_case_split (L : Ledger) (k : String) (a : Int) :
    (exec L 1 k a).2 = [] ∧
      (∀ v, L k = some v → (exec L 1 k a).1 k = some (intAdd v a)) ∧
      (∀ v, L k = some v → isInt (v + a) → (exec L 1 k a).1 k = some (v + a)) ∧
      (L k = none → (exec L 1 k a).1 k = some a) := by
  rw [exec_one]
  refine ⟨accumulate_snd L k a, ?_, ?_, ?_⟩
  · intro v hv
    rw [accumulate_fst_apply, hv]
    simp
  · intro v hv hr
    rw [accumulate_fst_apply, hv]
    simp [intAdd, wrapInt_of_isInt hr]
  · intro hn
    rw [accumulate_fst_apply, hn]
    simp

/-- The two cases of C4 on the ledger that holds 5 for `apple` only. -/
theorem accumulate_case_split_witness :
    (exec (Ledger.empty.store "apple" 5) 1 "apple" 3).1 "apple" = some 8 ∧
    (exec (Ledger.empty.store "apple" 5) 1 "pear" (-2)).1 "pear" = some (-2) ∧
    (exec (Ledger.empty.store "apple" 5) 1 "apple" 3).2 = [] :=
  ⟨(accumulate_case_split (Ledger.empty.store "apple" 5) "apple" 3).2.2.1 5 (by decide)
      (by decide),
    (accumulate_case_split (Ledger.empty.store "apple" 5) "pear" (-2)).2.2.2 (by decide),
    (accumulate_case_split (Ledger.empty.store "apple" 5) "apple" 3).1⟩

/-- C5 (P5, tag dispatch): for every integer tag `t`, the command step is the
accumulate branch iff `t = 1`, the reset branch iff `t = 2` and the query
branch iff `t` is neither; and for any other tag `u` outside {1,2}, every
ledger and every key, the steps with tags `t` and `u` (both outside {1,2})
give the same output and the same ledger, whatever the stale amounts. -/
theorem tag_dispatch (t : Int) :
    ((fun L k m => exec L t k m) = accumulate ↔ t = 1) ∧
      ((fun L k m => exec L t k m) = (fun L k _ => reset L k) ↔ t = 2) ∧
      ((fun L k m => exec L t k m) = (fun L k _ => query L k) ↔ (t ≠ 1 ∧ t ≠ 2)) ∧
      (∀ u : Int, t ≠ 1 → t ≠ 2 → u ≠ 1 → u ≠ 2 →
        ∀ (L : Ledger) (k : String) (m m2 : Int), exec L t k m = exec L u k m2) := by
  have hAR : ¬ ((fun (L : Ledger) (k : String) (_ : Int) => reset L k) = accumulate) := by
    intro h
    have h2 := congrArg (fun p : Ledger × List Int => p.1 "k")
      (congrFun (congrFun (congrFun h (Ledger.empty.store "k" 5)) "k") 1)
    revert h2
    decide
  have hAQ : ¬ ((fun (L : Ledger) (k : String) (_ : Int) => query L k) = accumulate) := by
    intro h
    have h2 := congrArg (fun p : Ledger × List Int => p.2)
      (congrFun (congrFun (congrFun h Ledger.empty) "k") 1)
    revert h2
    decide
  have hRQ : ¬ ((fun (L : Ledger) (k : String) (_ : Int) => query L k) =
      (fun (L : Ledger) (k : String) (_ : Int) => reset L k)) := by
    intro h
    have h2 := congrArg (fun p : Ledger × List Int => p.2)
      (congrFun (congrFun (congrFun h Ledger.empty) "k") 1)
    revert h2
    decide
  have e1 : t = 1 → (fun L k m => exec L t k m) = accumulate := by
    intro h; subst h; funext L k m; exact exec_one L k m
  have e2 : t = 2 → (fun L k m => exec L t k m) = (fun L k _ => reset L k) := by
    intro h; subst h; funext L k m; exact exec_two L k m
  have e3 : t ≠ 1 → t ≠ 2 → (fun L k m => exec L t k m) = (fun L k _ => query L k) := by
    intro h1 h2; funext L k m; exact exec_other L t k m h1 h2
  refine ⟨⟨?_, e1⟩, ⟨?_, e2⟩, ⟨?_, fun h => e3 h.1 h.2⟩, ?_⟩
  · intro h
    by_contra h1
    by_cases h2 : t = 2
    · exact hAR ((e2 h2).symm.trans h)
    · exact hAQ ((e3 h1 h2).symm.trans h)
  · intro h
    by_contra h2
    by_cases h1 : t = 1
    · exact hAR (h.symm.trans (e1 h1))
    · exact hRQ ((e3 h1 h2).symm.trans h)
  · intro h
    constructor
    · intro h1
      exact hAQ (h.symm.trans (e1 h1))
    · intro h2
      exact hRQ (h.symm.trans (e2 h2))
  · intro u h1 h2 hu1 hu2 L k m m2
    rw [exec_other L t k m h1 h2, exec_other L u k m2 hu1 hu2]

/-- Tags -7 and 99 on the ledger that holds 5 for `apple`: the same line and
the same ledger as tag 3. -/
theorem tag_dispatch_witness :
    (-7 : Int) ≠ 1 ∧ (-7 : Int) ≠ 2 ∧ (99 : Int) ≠ 1 ∧ (99 : Int) ≠ 2 ∧
    exec (Ledger.empty.store "apple" 5) (-7) "apple" 0 =
      exec (Ledger.empty.store "apple" 5) 99 "apple" 1 ∧
    (exec (Ledger.empty.store "apple" 5) (-7) "apple" 0).2 = [5] :=
  ⟨by decide, by decide, by decide, by decide,
    (tag_dispatch (-7)).2.2.2 99 (by decide) (by decide) (by decide) (by decide)
      (Ledger.empty.store "apple" 5) "apple" 0 1,
    by decide⟩

/-- C6 (P4, order preservation): the output of `cmds1 ++ cmds2` from a ledger
`L` is the output of `cmds1` from `L` followed by the output of `cmds2` from
the ledger `cmds1` leaves; and for every query command `c` of a sequence, with
`pre` the commands before it, the output line whose index is the number of
queries in `pre` is the value read at the key of `c` in the ledger that
exactly the commands of `pre` leave (0 for a key absent at that moment). -/
theorem order_preservation (L : Ledger) :
    (∀ cmds1 cmds2 : List Cmd,
        (run L (cmds1 ++ cmds2)).2 = (run L cmds1).2 ++ (run (run L cmds1).1 cmds2).2) ∧
      (∀ (pre post : List Cmd) (c : Cmd), c.isQuery = true →
        (run L (pre ++ c :: post)).2[pre.countP Cmd.isQuery]? =
          some ((run L pre).1.value c.key)) := by
  constructor
  · intro cmds1 cmds2
    rw [run_append]
  · intro pre post c hc
    have h12 : c.tag ≠ 1 ∧ c.tag ≠ 2 := by simpa [Cmd.isQuery] using hc
    rw [run_append, run_cons]
    simp only
    rw [exec_other _ c.tag c.key c.amount h12.1 h12.2, query_snd,
      ← run_snd_length pre L]
    rw [List.getElem?_append_right (Nat.le_refl _)]
    simp

/-- The second query of `3 a`, `1 a 4`, `3 a`, `1 a 1` is line 1 and reads 4. -/
theorem order_preservation_witness :
    Cmd.isQuery ⟨3, "a", 0⟩ = true ∧
    (run Ledger.empty ([⟨3, "a", 0⟩, ⟨1, "a", 4⟩] ++ ⟨3, "a", 0⟩ :: [⟨1, "a", 1⟩])).2[
        ([⟨3, "a", 0⟩, ⟨1, "a", 4⟩] : List Cmd).countP Cmd.isQuery]? =
      some ((run Ledger.empty [⟨3, "a", 0⟩, ⟨1, "a", 4⟩]).1.value "a") ∧
    (run Ledger.empty [⟨3, "a", 0⟩, ⟨1, "a", 4⟩]).1.value "a" = 4 :=
  ⟨by decide,
    (order_preservation Ledger.empty).2 [⟨3, "a", 0⟩, ⟨1, "a", 4⟩] [⟨1, "a", 1⟩] ⟨3, "a", 0⟩
      (by decide),
    by decide⟩

/-- C7 (one output line per query and none otherwise): the number of lines a
run writes is the number of its commands whose tag is neither 1 nor 2; an
accumulate and a reset write no line; a query writes exactly one line, one
integer; and the program itself, on a count `N` and `N` well-formed
commands, writes as many lines as there are commands among those `N` whose
tag is neither 1 nor 2. -/
theorem one_line_per_query (L : Ledger) :
    (∀ cmds : List Cmd, (run L cmds).2.length = cmds.countP Cmd.isQuery) ∧
      (∀ (k : String) (m : Int), (exec L 1 k m).2 = []) ∧
      (∀ (k : String) (m : Int), (exec L 2 k m).2 = []) ∧
      (∀ (t : Int) (k : String) (m : Int), t ≠ 1 → t ≠ 2 →
        ∃ v : Int, (exec L t k m).2 = [v]) ∧
      (∀ (n₀ m₀ t₀ : Int) (cnt : String) (N : Nat) (toks : List String)
          (cmds : List Cmd) (rest : List String),
        intTok cnt = some (N : Int) → readCmds N toks = some (cmds, rest) →
        (main n₀ m₀ t₀ (cnt :: toks)).2.cout.length = cmds.countP Cmd.isQuery) := by
  refine ⟨fun cmds => run_snd_length cmds L, ?_, ?_, ?_, ?_⟩
  · intro k m
    rw [exec_one, accumulate_snd]
  · intro k m
    rw [exec_two]
    rfl
  · intro t k m h1 h2
    exact ⟨L.value k, by rw [exec_other L t k m h1 h2, query_snd]⟩
  · intro n₀ m₀ t₀ cnt N toks cmds rest hcnt hwf
    rw [(main_wellformed n₀ m₀ t₀ cnt N toks cmds rest hcnt hwf).2.2.1]
    exact run_snd_length cmds Ledger.empty

/-- Four commands, two of them queries, write two lines, from the commands
and from the tokens `4 3 a 1 a 4 2 b 0 a`. -/
theorem one_line_per_query_witness :
    (run Ledger.empty [⟨3, "a", 0⟩, ⟨1, "a", 4⟩, ⟨2, "b", 0⟩, ⟨0, "a", 0⟩]).2.length = 2 ∧
    (0 : Int) ≠ 1 ∧ (0 : Int) ≠ 2 ∧ (∃ v : Int, (exec Ledger.empty 0 "a" 0).2 = [v]) ∧
    intTok "4" = some ((4 : Nat) : Int) ∧
    readCmds 4 ["3", "a", "1", "a", "4", "2", "b", "0", "a"] =
      some ([⟨3, "a", 0⟩, ⟨1, "a", 4⟩, ⟨2, "b", 0⟩, ⟨0, "a", 0⟩], []) ∧
    (main 0 0 0 ("4" :: ["3", "a", "1", "a", "4", "2", "b", "0", "a"])).2.cout.length = 2 :=
  ⟨(one_line_per_query Ledger.empty).1 [⟨3, "a", 0⟩, ⟨1, "a", 4⟩, ⟨2, "b", 0⟩, ⟨0, "a", 0⟩],
    by decide, by decide,
    (one_line_per_query Ledger.empty).2.2.2.1 0 "a" 0 (by decide) (by decide),
    by decide, by decide,
    (one_line_per_query Ledger.empty).2.2.2.2 0 0 0 "4" 4
      ["3", "a", "1", "a", "4", "2", "b", "0", "a"]
      [⟨3, "a", 0⟩, ⟨1, "a", 4⟩, ⟨2, "b", 0⟩, ⟨0, "a", 0⟩] [] (by decide) (by decide)⟩

/-- C8 (exactly N commands): for every count token that is the numeral of
`N ≥ 0` and every token stream whose front is `N` well-formed commands
`cmds`, whatever tokens `extra` follow them, the program returns exit code 0
with the stream not failed, has read exactly those `N` commands (the unread
tokens and `extra` are what is left of the input), and its output and final
ledger are those of `run` on `cmds` from the empty ledger: nothing after the
`N`-th command has an effect, and for `N = 0` there is no output and the
ledger is empty.  The initial values of `n`, `m` and `t` are arbitrary. -/
theorem exactly_n_commands (n₀ m₀ t₀ : Int) (cnt : String) (N : Nat) (toks : List String)
    (cmds : List Cmd) (rest extra : List String)
    (hcnt : intTok cnt = some (N : Int)) (hwf : readCmds N toks = some (cmds, rest)) :
    (main n₀ m₀ t₀ (cnt :: (toks ++ extra))).1 = 0 ∧
      (main n₀ m₀ t₀ (cnt :: (toks ++ extra))).2.cin = ⟨rest ++ extra, false⟩ ∧
      (main n₀ m₀ t₀ (cnt :: (toks ++ extra))).2.cout = (run Ledger.empty cmds).2 ∧
      (main n₀ m₀ t₀ (cnt :: (toks ++ extra))).2.mp = (run Ledger.empty cmds).1 ∧
      cmds.length = N ∧
      (N = 0 → (main n₀ m₀ t₀ (cnt :: (toks ++ extra))).2.cout = [] ∧
        (main n₀ m₀ t₀ (cnt :: (toks ++ extra))).2.mp = Ledger.empty) := by
  obtain ⟨l0, l1, l2, l3, l4⟩ := main_wellformed n₀ m₀ t₀ cnt N (toks ++ extra) cmds
    (rest ++ extra) hcnt (readCmds_append N toks cmds rest extra hwf)
  refine ⟨l0, l1, l2, l3, l4, ?_⟩
  intro h0
  have hc : cmds = [] := List.length_eq_zero.mp (l4.trans h0)
  subst hc
  exact ⟨l2, l3⟩

/-- Scenario A as input, followed by two more commands that are never read:
the count 3, `1 apple 5`, `1 apple 3`, `3 apple`, then `3 apple`,
`1 apple 9`. -/
theorem exactly_n_commands_witness :
    intTok "3" = some ((3 : Nat) : Int) ∧
    readCmds 3 ["1", "apple", "5", "1", "apple", "3", "3", "apple"] =
      some ([⟨1, "apple", 5⟩, ⟨1, "apple", 3⟩, ⟨3, "apple", 0⟩], []) ∧
    (main 7 7 7 ("3" :: (["1", "apple", "5", "1", "apple", "3", "3", "apple"] ++
        ["3", "apple", "1", "apple", "9"]))).2.cout =
      (run Ledger.empty [⟨1, "apple", 5⟩, ⟨1, "apple", 3⟩, ⟨3, "apple", 0⟩]).2 ∧
    (run Ledger.empty [⟨1, "apple", 5⟩, ⟨1, "apple", 3⟩, ⟨3, "apple", 0⟩]).2 = [8] :=
  ⟨by decide, by decide,
    (exactly_n_commands 7 7 7 "3" 3 ["1", "apple", "5", "1", "apple", "3", "3", "apple"]
      [⟨1, "apple", 5⟩, ⟨1, "apple", 3⟩, ⟨3, "apple", 0⟩] []
      ["3", "apple", "1", "apple", "9"] (by decide) (by decide)).2.2.1,
    by decide⟩

/-- C9, the claim fails: the count 2 followed by the single command
`3 apple`.  The first command is well formed and writes the line 0; the
input then ends where the second tag is expected.  The program neither stops
nor reports: the second iteration reads nothing, runs the query branch on
the stale `t = 3` and `s = apple`, writes a second line 0, and the exit code
is 0 (the stream's fail flag is all that records the error).  The same
happens when a non-integer token stands where the second tag is expected. -/
theorem fail_fast_counterexample :
    intTok "2" = some 2 ∧
    readCmds 1 ["3", "apple"] = some ([⟨3, "apple", 0⟩], []) ∧
    readCmds 2 ["3", "apple"] = none ∧
    (run Ledger.empty [⟨3, "apple", 0⟩]).2 = [0] ∧
    (main 0 0 0 ["2", "3", "apple"]).2.cout = [0, 0] ∧
    (main 0 0 0 ["2", "3", "apple"]).1 = 0 ∧
    (main 0 0 0 ["2", "3", "apple"]).2.cin.fail = true ∧
    readCmds 2 ["3", "apple", "x", "pear"] = none ∧
    (main 0 0 0 ["2", "3", "apple", "x", "pear"]).2.cout = [0, 0] := by
  decide

/-- C9 as amended (malformed input does not fail fast): whatever the token
stream, the program returns exit code 0; once an extraction has failed or the
input has run out, every later extraction reads nothing and leaves `t`, `s`
and `m` as they are, so each remaining iteration of the loop runs the branch
chosen by the stale `t` on the stale `s` and `m` (writing a line whenever
that `t` is neither 1 nor 2); and the lines of the well-formed commands that
stand at the front of the stream are written first, whatever follows them. -/
theorem malformed_input_runs_on :
    (∀ (n₀ m₀ t₀ : Int) (input : List String), (main n₀ m₀ t₀ input).1 = 0) ∧
      (∀ (σ : Vars) (k : Nat), (σ.cin.fail = true ∨ σ.cin.toks = []) →
        loop (k + 1) σ =
          { cin := ⟨σ.cin.toks, true⟩,
            cout := σ.cout ++ (run σ.mp (List.replicate (k + 1) ⟨σ.t, σ.s, σ.m⟩)).2,
            m := σ.m, t := σ.t, s := σ.s,
            mp := (run σ.mp (List.replicate (k + 1) ⟨σ.t, σ.s, σ.m⟩)).1 }) ∧
      (∀ (n₀ m₀ t₀ : Int) (cnt : String) (N k : Nat) (toks : List String)
          (cmds : List Cmd) (rest : List String),
        intTok cnt = some (N : Int) → k ≤ N → readCmds k toks = some (cmds, rest) →
        ∃ more : List Int,
          (main n₀ m₀ t₀ (cnt :: toks)).2.cout = (run Ledger.empty cmds).2 ++ more) := by
  refine ⟨fun _ _ _ _ => rfl, fun σ k h => loop_stale k σ h, ?_⟩
  intro n₀ m₀ t₀ cnt N k toks cmds rest hcnt hk hwf
  have hm : (main n₀ m₀ t₀ (cnt :: toks)).2 =
      loop N { cin := ⟨toks, false⟩, cout := [], m := m₀, t := t₀, s := "",
               mp := Ledger.empty } := by
    unfold main
    simp only [getInt_of_intTok hcnt, Int.toNat_ofNat]
  have hl := loop_wellformed k toks cmds rest
    { cin := ⟨toks, false⟩, cout := [], m := m₀, t := t₀, s := "", mp := Ledger.empty }
    rfl hwf
  simp only [List.nil_append] at hl
  have hN : N = k + (N - k) := by omega
  rw [hm, hN, loop_add]
  obtain ⟨more, hmore⟩ := loop_cout (N - k)
    (loop k { cin := ⟨toks, false⟩, cout := [], m := m₀, t := t₀, s := "",
              mp := Ledger.empty })
  exact ⟨more, by rw [hmore, hl.2.1]⟩

/-- The state after the first iteration on `2 3 apple`: the input is at its
end, one more iteration writes a second line. -/
theorem malformed_input_runs_on_witness :
    ((IStream.mk [] false).fail = true ∨ (IStream.mk [] false).toks = []) ∧
    (loop (0 + 1) { cin := ⟨[], false⟩, cout := [0], m := 0, t := 3, s := "apple",
                    mp := Ledger.empty.store "apple" 0 }).cout = [0, 0] ∧
    (loop (0 + 1) { cin := ⟨[], false⟩, cout := [0], m := 0, t := 3, s := "apple",
                    mp := Ledger.empty.store "apple" 0 }).cin = ⟨[], true⟩ :=
  ⟨Or.inr rfl,
    (congrArg Vars.cout (malformed_input_runs_on.2.1
      { cin := ⟨[], false⟩, cout := [0], m := 0, t := 3, s := "apple",
        mp := Ledger.empty.store "apple" 0 } 0 (Or.inr rfl))).trans (by decide),
    by decide⟩

/-- C10 (ledger invariant): from the empty ledger, after any prefix of a
command sequence every key named by a command of that prefix, whatever its
tag, is present with a value, which is an `int` when the amounts of the
prefix are; for every ledger and command, the keys present after the command
are exactly the keys present before it and the key of the command; and no run
removes a key. -/
theorem ledger_invariant :
    (∀ (cmds : List Cmd) (i : Nat) (c : Cmd), c ∈ cmds.take i →
        ∃ v : Int, (run Ledger.empty (cmds.take i)).1 c.key = some v ∧
          ((∀ d ∈ cmds.take i, isInt d.amount) → isInt v)) ∧
      (∀ (L : Ledger) (t : Int) (k : String) (m : Int) (j : String),
        ((exec L t k m).1 j).isSome = true ↔ ((L j).isSome = true ∨ j = k)) ∧
      (∀ (L : Ledger) (cmds : List Cmd) (j : String),
        (L j).isSome = true → ((run L cmds).1 j).isSome = true) := by
  refine ⟨?_, exec_isSome, fun L cmds j h => (run_isSome cmds j L).mpr (Or.inl h)⟩
  intro cmds i c hc
  have hs := (run_isSome (cmds.take i) c.key Ledger.empty).mpr (Or.inr ⟨c, hc, rfl⟩)
  obtain ⟨v, hv⟩ := Option.isSome_iff_exists.mp hs
  refine ⟨v, hv, fun hd => ?_⟩
  exact run_isInt (cmds.take i) Ledger.empty (by intro j w h; simp [Ledger.empty] at h) hd
    c.key v hv

/-- The keys after the first two of `3 cherry`, `1 apple 5`, `2 pear`. -/
theorem ledger_invariant_witness :
    (⟨3, "cherry", 0⟩ : Cmd) ∈
      ([⟨3, "cherry", 0⟩, ⟨1, "apple", 5⟩, ⟨2, "pear", 0⟩] : List Cmd).take 2 ∧
    (∃ v : Int,
      (run Ledger.empty
        (([⟨3, "cherry", 0⟩, ⟨1, "apple", 5⟩, ⟨2, "pear", 0⟩] : List Cmd).take 2)).1
          (⟨3, "cherry", 0⟩ : Cmd).key = some v ∧
      ((∀ d ∈ ([⟨3, "cherry", 0⟩, ⟨1, "apple", 5⟩, ⟨2, "pear", 0⟩] : List Cmd).take 2,
        isInt d.amount) → isInt v)) ∧
    (run Ledger.empty [⟨3, "cherry", 0⟩, ⟨1, "apple", 5⟩]).1 "cherry" = some 0 ∧
    (run Ledger.empty [⟨3, "cherry", 0⟩, ⟨1, "apple", 5⟩]).1 "pear" = none :=
  ⟨by decide,
    ledger_invariant.1 [⟨3, "cherry", 0⟩, ⟨1, "apple", 5⟩, ⟨2, "pear", 0⟩] 2
      ⟨3, "cherry", 0⟩ (by decide),
    by decide, by decide⟩

/-! ## The pure-read variant -/

theorem accumulate_value (L : Ledger) (k : String) (a : Int) (ha : isInt a) (j : String) :
    (accumulate L k a).1.value j = if j = k then intAdd (L.value k) a else L.value j := by
  unfold Ledger.value
  rw [accumulate_fst_apply]
  by_cases hj : j = k
  · subst hj
    cases h : L j with
    | none => simp [intAdd, wrapInt_of_isInt ha]
    | some v => simp
  · simp [hj]

theorem reset_value (L : Ledger) (k j : String) :
    (reset L k).1.value j = if j = k then 0 else L.value j := by
  unfold Ledger.value
  rw [reset_fst_apply]
  by_cases hj : j = k <;> simp [hj]

theorem query_value (L : Ledger) (k j : String) : (query L k).1.value j = L.value j := by
  unfold Ledger.value
  rw [query_fst_apply]
  by_cases hj : j = k
  · subst hj
    simp [Ledger.value]
  · simp [hj]

theorem queryPure_eq (L : Ledger) (k : String) : queryPure L k = (L, [L.value k]) := by
  unfold queryPure Ledger.value
  cases h : L k <;> simp

/-- One step of the program and one step of the variant from ledgers that
read the same value at every key: the same lines, and again the same value
at every key. -/
theorem exec_execPure (L P : Ledger) (t : Int) (k : String) (a : Int) (ha : isInt a)
    (h : ∀ j, L.value j = P.value j) :
    (exec L t k a).2 = (execPure P t k a).2 ∧
      ∀ j, (exec L t k a).1.value j = (execPure P t k a).1.value j := by
  by_cases h1 : t = 1
  · subst h1
    have e : execPure P 1 k a = accumulate P k a := by simp [execPure]
    rw [exec_one, e, accumulate_snd, accumulate_snd]
    refine ⟨rfl, fun j => ?_⟩
    rw [accumulate_value L k a ha, accumulate_value P k a ha, h k, h j]
  · by_cases h2 : t = 2
    · subst h2
      have e : execPure P 2 k a = reset P k := by simp [execPure]
      rw [exec_two, e]
      refine ⟨rfl, fun j => ?_⟩
      rw [reset_value, reset_value, h j]
    · have e : execPure P t k a = queryPure P k := by simp [execPure, h1, h2]
      rw [exec_other L t k a h1 h2, e, queryPure_eq, query_snd]
      refine ⟨by rw [h k], fun j => ?_⟩
      rw [query_value]
      exact h j

theorem run_runPure (cmds : List Cmd) :
    ∀ L P : Ledger, (∀ j, L.value j = P.value j) → (∀ c ∈ cmds, isInt c.amount) →
      (run L cmds).2 = (runPure P cmds).2 ∧
        ∀ j, (run L cmds).1.value j = (runPure P cmds).1.value j := by
  induction cmds with
  | nil => intro L P h _; exact ⟨rfl, h⟩
  | cons c cs ih =>
    intro L P h hc
    obtain ⟨e1, e2⟩ := exec_execPure L P c.tag c.key c.amount
      (hc c (List.mem_cons_self _ _)) h
    obtain ⟨i1, i2⟩ := ih (exec L c.tag c.key c.amount).1 (execPure P c.tag c.key c.amount).1
      e2 (fun d hd => hc d (List.mem_cons_of_mem _ hd))
    rw [run_cons]
    show _ = (execPure P c.tag c.key c.amount).2 ++
        (runPure (execPure P c.tag c.key c.amount).1 cs).2 ∧
      ∀ j, _ = (runPure (execPure P c.tag c.key c.amount).1 cs).1.value j
    exact ⟨by rw [e1, i1], i2⟩

/-- The amounts of commands read by the grammar are `int`s. -/
theorem readCmds_isInt (k : Nat) :
    ∀ (toks : List String) (cmds : List Cmd) (rest : List String),
      readCmds k toks = some (cmds, rest) → ∀ c ∈ cmds, isInt c.amount := by
  induction k with
  | zero =>
    intro toks cmds rest h
    simp only [readCmds, Option.some.injEq, Prod.mk.injEq] at h
    obtain ⟨h1, _⟩ := h
    subst h1
    intro c hc
    simp at hc
  | succ k ih =>
    intro toks cmds rest h
    cases toks with
    | nil => simp [readCmds] at h
    | cons tg toks =>
      simp only [readCmds] at h
      cases htg : intTok tg with
      | none => simp [htg] at h
      | some t =>
        rw [htg] at h
        simp only at h
        by_cases h1 : t = 1
        · rw [if_pos h1] at h
          cases toks with
          | nil => simp at h
          | cons key toks =>
            cases toks with
            | nil => simp at h
            | cons amt toks =>
              simp only at h
              cases ham : intTok amt with
              | none => simp [ham] at h
              | some a =>
                rw [ham] at h
                simp only at h
                cases hr : readCmds k toks with
                | none => simp [hr] at h
                | some p =>
                  obtain ⟨cs, rest2⟩ := p
                  rw [hr] at h
                  simp only [Option.some.injEq, Prod.mk.injEq] at h
                  obtain ⟨hc, _⟩ := h
                  subst hc
                  intro c hmem
                  rcases List.mem_cons.mp hmem with e | e
                  · subst e
                    exact isInt_of_intTok ham
                  · exact ih toks cs rest2 hr c e
        · rw [if_neg h1] at h
          cases toks with
          | nil => simp at h
          | cons key toks =>
            simp only at h
            cases hr : readCmds k toks with
            | none => simp [hr] at h
            | some p =>
              obtain ⟨cs, rest2⟩ := p
              rw [hr] at h
              simp only [Option.some.injEq, Prod.mk.injEq] at h
              obtain ⟨hc, _⟩ := h
              subst hc
              intro c hmem
              rcases List.mem_cons.mp hmem with e | e
              · subst e
                show isInt 0
                decide
              · exact ih toks cs rest2 hr c e

/-- C11, the claim fails: there is no command sequence with `int` amounts on
which the lines the program writes differ from the lines of the variant whose
query of an absent key writes 0 without inserting the key. -/
theorem pure_read_counterexample :
    ¬ ∃ cmds : List Cmd, (∀ c ∈ cmds, isInt c.amount) ∧
        (run Ledger.empty cmds).2 ≠ (runPure Ledger.empty cmds).2 := by
  rintro ⟨cmds, hc, hne⟩
  exact hne (run_runPure cmds Ledger.empty Ledger.empty (fun _ => rfl) hc).1

/-- C11 as amended (a pure-read query changes no output): for every command
sequence with `int` amounts the program and the variant write the same lines
and every key reads the same value in both final ledgers; so does the program
on every well-formed token stream; the two differ only in the keys present:
after a query of an absent key the program holds the key with value 0 and
the variant does not hold it. -/
theorem pure_read_same_output :
    (∀ cmds : List Cmd, (∀ c ∈ cmds, isInt c.amount) →
        (run Ledger.empty cmds).2 = (runPure Ledger.empty cmds).2 ∧
          ∀ j, (run Ledger.empty cmds).1.value j = (runPure Ledger.empty cmds).1.value j) ∧
      (∀ (n₀ m₀ t₀ : Int) (cnt : String) (N : Nat) (toks : List String)
          (cmds : List Cmd) (rest : List String),
        intTok cnt = some (N : Int) → readCmds N toks = some (cmds, rest) →
        (main n₀ m₀ t₀ (cnt :: toks)).2.cout = (runPure Ledger.empty cmds).2) ∧
      (∀ (L : Ledger) (t : Int) (k : String) (m : Int), L k = none → t ≠ 1 → t ≠ 2 →
        (exec L t k m).1 k = some 0 ∧ (execPure L t k m).1 k = none) := by
  refine ⟨fun cmds hc => run_runPure cmds Ledger.empty Ledger.empty (fun _ => rfl) hc, ?_, ?_⟩
  · intro n₀ m₀ t₀ cnt N toks cmds rest hcnt hwf
    rw [(main_wellformed n₀ m₀ t₀ cnt N toks cmds rest hcnt hwf).2.2.1]
    exact (run_runPure cmds Ledger.empty Ledger.empty (fun _ => rfl)
      (readCmds_isInt N toks cmds rest hwf)).1
  · intro L t k m hk h1 h2
    constructor
    · rw [exec_other L t k m h1 h2, query_fst_apply]
      simp [Ledger.value, hk]
    · have e : execPure L t k m = queryPure L k := by simp [execPure, h1, h2]
      rw [e, queryPure_eq]
      exact hk

/-- Scenario C, `3 cherry`, `1 cherry 4`, `3 cherry`: 0 then 4 from the
program and from the variant. -/
theorem pure_read_same_output_witness :
    (∀ c ∈ ([⟨3, "cherry", 0⟩, ⟨1, "cherry", 4⟩, ⟨3, "cherry", 0⟩] : List Cmd),
      isInt c.amount) ∧
    (run Ledger.empty [⟨3, "cherry", 0⟩, ⟨1, "cherry", 4⟩, ⟨3, "cherry", 0⟩]).2 =
      (runPure Ledger.empty [⟨3, "cherry", 0⟩, ⟨1, "cherry", 4⟩, ⟨3, "cherry", 0⟩]).2 ∧
    (runPure Ledger.empty [⟨3, "cherry", 0⟩, ⟨1, "cherry", 4⟩, ⟨3, "cherry", 0⟩]).2 = [0, 4] ∧
    (run Ledger.empty [⟨3, "cherry", 0⟩]).1 "cherry" = some 0 ∧
    (runPure Ledger.empty [⟨3, "cherry", 0⟩]).1 "cherry" = none :=
  ⟨by decide,
    (pure_read_same_output.1 [⟨3, "cherry", 0⟩, ⟨1, "cherry", 4⟩, ⟨3, "cherry", 0⟩]
      (by decide)).1,
    by decide, by decide, by decide⟩

/-! ## Commands on different keys -/

theorem wrapInt_add_wrapInt (x y : Int) : wrapInt (wrapInt x + y) = wrapInt (x + y) := by
  unfold wrapInt
  omega

/-- A command leaves the entry of every key other than its own as it is. -/
theorem exec_fst_apply_ne (L : Ledger) (t : Int) (k : String) (m : Int) (j : String)
    (hj : j ≠ k) : (exec L t k m).1 j = L j := by
  by_cases h1 : t = 1
  · subst h1
    rw [exec_one, accumulate_fst_apply, if_neg hj]
  · by_cases h2 : t = 2
    · subst h2
      rw [exec_two, reset_fst_apply, if_neg hj]
    · rw [exec_other L t k m h1 h2, query_fst_apply, if_neg hj]

/-- The lines a command writes and the entry it leaves for its key depend on
the ledger through the entry of that key only. -/
theorem exec_congr (L P : Ledger) (t : Int) (k : String) (m : Int) (h : L k = P k) :
    (exec L t k m).2 = (exec P t k m).2 ∧ (exec L t k m).1 k = (exec P t k m).1 k := by
  by_cases h1 : t = 1
  · subst h1
    simp only [exec_one, accumulate_snd, accumulate_fst_apply, h]
    exact ⟨trivial, trivial⟩
  · by_cases h2 : t = 2
    · subst h2
      rw [exec_two, exec_two, reset_fst_apply, reset_fst_apply]
      exact ⟨rfl, by simp⟩
    · simp only [exec_other L t k m h1 h2, exec_other P t k m h1 h2, query_snd,
        query_fst_apply, Ledger.value, h]
      exact ⟨trivial, trivial⟩

/-- C12 (insertion order is irrelevant): for every ledger and any two
commands that name different keys, the two orders of processing leave the
same ledger (the same keys with the same values) and each command writes the
same lines whether it comes first or second; and two accumulate commands on
one key leave the same ledger in either order, the value being the exact
`v + a + b` when the sums are `int`s. -/
theorem insertion_order_irrelevant (L : Ledger) :
    (∀ c1 c2 : Cmd, c1.key ≠ c2.key →
        (run L [c1, c2]).1 = (run L [c2, c1]).1 ∧
        (exec (exec L c2.tag c2.key c2.amount).1 c1.tag c1.key c1.amount).2 =
          (exec L c1.tag c1.key c1.amount).2 ∧
        (exec (exec L c1.tag c1.key c1.amount).1 c2.tag c2.key c2.amount).2 =
          (exec L c2.tag c2.key c2.amount).2) ∧
      (∀ (k : String) (a b : Int),
        (run L [⟨1, k, a⟩, ⟨1, k, b⟩]).1 = (run L [⟨1, k, b⟩, ⟨1, k, a⟩]).1) ∧
      (∀ (k : String) (a b v : Int), L k = some v → isInt (v + a) → isInt (v + a + b) →
        (run L [⟨1, k, a⟩, ⟨1, k, b⟩]).1 k = some (v + a + b)) := by
  refine ⟨?_, ?_, ?_⟩
  · intro c1 c2 hne
    have hne2 : c2.key ≠ c1.key := fun e => hne e.symm
    refine ⟨?_, ?_, ?_⟩
    · simp only [run_cons, run_nil]
      funext j
      by_cases hj1 : j = c1.key
      · subst hj1
        rw [exec_fst_apply_ne _ c2.tag c2.key c2.amount _ hne]
        exact (exec_congr _ _ c1.tag c1.key c1.amount
          (exec_fst_apply_ne L c2.tag c2.key c2.amount _ hne).symm).2
      · rw [exec_fst_apply_ne _ c1.tag c1.key c1.amount j hj1]
        by_cases hj2 : j = c2.key
        · subst hj2
          exact (exec_congr _ _ c2.tag c2.key c2.amount
            (exec_fst_apply_ne L c1.tag c1.key c1.amount _ hne2)).2
        · rw [exec_fst_apply_ne _ c2.tag c2.key c2.amount j hj2,
            exec_fst_apply_ne _ c1.tag c1.key c1.amount j hj1,
            exec_fst_apply_ne _ c2.tag c2.key c2.amount j hj2]
    · exact (exec_congr _ _ c1.tag c1.key c1.amount
        (exec_fst_apply_ne L c2.tag c2.key c2.amount _ hne)).1
    · exact (exec_congr _ _ c2.tag c2.key c2.amount
        (exec_fst_apply_ne L c1.tag c1.key c1.amount _ hne2)).1
  · intro k a b
    simp only [run_cons, run_nil, exec_one]
    funext j
    have key : ∀ x y : Int, (accumulate (accumulate L k x).1 k y).1 j =
        if j = k then
          some (match L k with
            | some v => wrapInt (v + x + y)
            | none => wrapInt (x + y))
        else L j := by
      intro x y
      rw [accumulate_fst_apply]
      by_cases hj : j = k
      · subst hj
        rw [accumulate_fst_apply]
        cases h : L j <;> simp [intAdd, wrapInt_add_wrapInt]
      · simp [hj, accumulate_fst_apply]
    rw [key a b, key b a]
    by_cases hj : j = k
    · simp only [if_pos hj]
      cases h : L k with
      | none => simp only [add_comm]
      | some v => simp only [add_right_comm]
    · simp only [if_neg hj]
  · intro k a b v hv h1 h2
    simp only [run_cons, run_nil, exec_one]
    rw [accumulate_fst_apply, accumulate_fst_apply, hv]
    simp [intAdd, wrapInt_of_isInt h1, wrapInt_of_isInt h2]

/-- An accumulate on `apple` and a query of `pear` in both orders, and two
accumulates on `apple` in both orders, from the ledger that holds 5 for
`apple`. -/
theorem insertion_order_irrelevant_witness :
    (⟨1, "apple", 3⟩ : Cmd).key ≠ (⟨3, "pear", 0⟩ : Cmd).key ∧
    (run (Ledger.empty.store "apple" 5) [⟨1, "apple", 3⟩, ⟨3, "pear", 0⟩]).1 =
      (run (Ledger.empty.store "apple" 5) [⟨3, "pear", 0⟩, ⟨1, "apple", 3⟩]).1 ∧
    (Ledger.empty.store "apple" 5) "apple" = some 5 ∧ isInt (5 + 3) ∧ isInt (5 + 3 + (-9)) ∧
    (run (Ledger.empty.store "apple" 5) [⟨1, "apple", 3⟩, ⟨1, "apple", -9⟩]).1 "apple" =
      some (5 + 3 + (-9)) ∧
    (run (Ledger.empty.store "apple" 5) [⟨1, "apple", -9⟩, ⟨1, "apple", 3⟩]).1 "apple" =
      some (-1) :=
  ⟨by decide,
    ((insertion_order_irrelevant (Ledger.empty.store "apple" 5)).1
      ⟨1, "apple", 3⟩ ⟨3, "pear", 0⟩ (by decide)).1,
    by decide, by decide, by decide,
    (insertion_order_irrelevant (Ledger.empty.store "apple" 5)).2.2 "apple" 3 (-9) 5
      (by decide) (by decide) (by decide),
    by decide⟩

/-! ## The closed form of a query -/

theorem exec_value_wrap (L : Ledger) (t : Int) (key : String) (a : Int) (k : String)
    (hreset : ¬ (t = 2 ∧ key = k)) (ha : isInt a) (hL : isInt (L.value k)) :
    (exec L t key a).1.value k =
      wrapInt (L.value k + (if t = 1 ∧ key = k then a else 0)) := by
  by_cases h1 : t = 1
  · subst h1
    rw [exec_one, accumulate_value L key a ha]
    by_cases hk : k = key
    · subst hk
      simp [intAdd]
    · have hk2 : ¬ key = k := fun e => hk e.symm
      simp [hk, hk2, wrapInt_of_isInt hL]
  · by_cases h2 : t = 2
    · subst h2
      have hk : ¬ k = key := fun e => hreset ⟨rfl, e.symm⟩
      rw [exec_two, reset_value]
      simp [hk, wrapInt_of_isInt hL]
    · rw [exec_other L t key a h1 h2, query_value]
      simp [h1, wrapInt_of_isInt hL]

theorem exec_value_isInt (L : Ledger) (t : Int) (key : String) (a : Int) (k : String)
    (ha : isInt a) (hL : isInt (L.value k)) : isInt ((exec L t key a).1.value k) := by
  by_cases h1 : t = 1
  · subst h1
    rw [exec_one, accumulate_value L key a ha]
    split
    · exact isInt_wrapInt _
    · exact hL
  · by_cases h2 : t = 2
    · subst h2
      rw [exec_two, reset_value]
      split
      · decide
      · exact hL
    · rw [exec_other L t key a h1 h2, query_value]
      exact hL

theorem afterLastReset_of_none (k : String) (cmds : List Cmd)
    (h : cmds.any (fun d => d.isResetOf k) = false) : afterLastReset k cmds = cmds := by
  cases cmds with
  | nil => rfl
  | cons c cs =>
    rw [List.any_cons, Bool.or_eq_false_iff] at h
    simp [afterLastReset, h.1, h.2]

/-- The value read at `k` after a run, from a ledger whose value at `k` is
an `int`, on commands with `int` amounts. -/
theorem run_value_closed (k : String) (cmds : List Cmd) :
    ∀ L : Ledger, isInt (L.value k) → (∀ c ∈ cmds, isInt c.amount) →
      (run L cmds).1.value k =
        if cmds.any (fun d => d.isResetOf k) then wrapInt (sumOn k (afterLastReset k cmds))
        else wrapInt (L.value k + sumOn k cmds) := by
  induction cmds with
  | nil =>
    intro L hL _
    simp [run_nil, sumOn, wrapInt_of_isInt hL]
  | cons c cs ih =>
    intro L hL hc
    have ha : isInt c.amount := hc c (List.mem_cons_self _ _)
    have hi := ih (exec L c.tag c.key c.amount).1
      (exec_value_isInt L c.tag c.key c.amount k ha hL)
      (fun d hd => hc d (List.mem_cons_of_mem _ hd))
    rw [run_cons]
    simp only
    rw [hi]
    by_cases hcs : cs.any (fun d => d.isResetOf k) = true
    · simp [afterLastReset, hcs]
    · have hcs2 : cs.any (fun d => d.isResetOf k) = false := by simpa using hcs
      by_cases hr : c.isResetOf k = true
      · have hr2 : c.tag = 2 ∧ c.key = k := by simpa [Cmd.isResetOf] using hr
        have hv : (exec L c.tag c.key c.amount).1.value k = 0 := by
          rw [hr2.1, exec_two, reset_value, hr2.2]
          simp
        rw [if_neg hcs, hv, List.any_cons, hr]
        simp only [Bool.true_or, if_true]
        simp [afterLastReset, hcs2, hr]
      · have hr2 : ¬ (c.tag = 2 ∧ c.key = k) := by simpa [Cmd.isResetOf] using hr
        have hr3 : c.isResetOf k = false := by simpa using hr
        rw [if_neg hcs, exec_value_wrap L c.tag c.key c.amount k hr2 ha hL,
          wrapInt_add_wrapInt, List.any_cons, hr3, hcs2, sumOn_cons, add_assoc]
        simp

/-- The line a query writes, by its index in the output. -/
theorem run_line_of_query (L : Ledger) (pre post : List Cmd) (c : Cmd)
    (hc : c.isQuery = true) :
    (run L (pre ++ c :: post)).2[pre.countP Cmd.isQuery]? =
      some ((run L pre).1.value c.key) := by
  have h12 : c.tag ≠ 1 ∧ c.tag ≠ 2 := by simpa [Cmd.isQuery] using hc
  rw [run_append, run_cons]
  simp only
  rw [exec_other _ c.tag c.key c.amount h12.1 h12.2, query_snd, ← run_snd_length pre L]
  rw [List.getElem?_append_right (Nat.le_refl _)]
  simp

theorem run_empty_value_closed (k : String) (cmds : List Cmd)
    (hc : ∀ c ∈ cmds, isInt c.amount) :
    (run Ledger.empty cmds).1.value k = wrapInt (sumOn k (afterLastReset k cmds)) := by
  have h0 : isInt (Ledger.empty.value k) := by
    show isInt 0
    decide
  rw [run_value_closed k cmds Ledger.empty h0 hc]
  by_cases h : cmds.any (fun d => d.isResetOf k) = true
  · rw [if_pos h]
  · have h2 : cmds.any (fun d => d.isResetOf k) = false := by simpa using h
    rw [if_neg h, afterLastReset_of_none k cmds h2]
    show wrapInt (0 + _) = _
    rw [zero_add]

theorem sumOn_eq_zero (k : String) (cmds : List Cmd)
    (h : ∀ d ∈ cmds, ¬ (d.tag = 1 ∧ d.key = k)) : sumOn k cmds = 0 := by
  induction cmds with
  | nil => rfl
  | cons c cs ih =>
    rw [sumOn_cons, if_neg (h c (List.mem_cons_self _ _)),
      ih (fun d hd => h d (List.mem_cons_of_mem _ hd))]
    rfl

/-- The values read after a run are those read after the same run with its
queries taken out. -/
theorem run_value_filter (cmds : List Cmd) :
    ∀ L P : Ledger, (∀ j, L.value j = P.value j) → (∀ c ∈ cmds, isInt c.amount) →
      ∀ j, (run L cmds).1.value j =
        (run P (cmds.filter (fun d => !d.isQuery))).1.value j := by
  induction cmds with
  | nil => intro L P h _; simpa [run_nil] using h
  | cons c cs ih =>
    intro L P h hc
    have hcs : ∀ d ∈ cs, isInt d.amount := fun d hd => hc d (List.mem_cons_of_mem _ hd)
    rw [run_cons]
    simp only
    by_cases hq : c.isQuery = true
    · have h12 : c.tag ≠ 1 ∧ c.tag ≠ 2 := by simpa [Cmd.isQuery] using hq
      rw [List.filter_cons_of_neg (by simp [hq])]
      apply ih _ P _ hcs
      intro j
      rw [exec_other L c.tag c.key c.amount h12.1 h12.2, query_value]
      exact h j
    · have h12 : c.tag = 1 ∨ c.tag = 2 := by
        by_contra hn
        apply hq
        simp only [Cmd.isQuery, decide_eq_true_eq]
        exact ⟨fun e => hn (Or.inl e), fun e => hn (Or.inr e)⟩
      rw [List.filter_cons_of_pos (by simp [hq]), run_cons]
      simp only
      apply ih _ _ _ hcs
      have ha := hc c (List.mem_cons_self _ _)
      have e : execPure P c.tag c.key c.amount = exec P c.tag c.key c.amount := by
        rcases h12 with e1 | e2
        · simp [execPure, exec, e1]
        · simp [execPure, exec, e2]
      have hs := (exec_execPure L P c.tag c.key c.amount ha h).2
      rw [e] at hs
      exact hs

/-- C13, the claim fails: `1 a 2147483647`, `1 a 1`, `3 a` from the empty
ledger.  The amounts are `int`s and the sum of the amounts accumulated on `a`
is 2147483648, which no `int` holds; the `+=` of the second command
overflows and the query writes -2147483648, from the commands and from the
token stream. -/
theorem closed_form_counterexample :
    (∀ c ∈ ([⟨1, "a", 2147483647⟩, ⟨1, "a", 1⟩] : List Cmd), isInt c.amount) ∧
    sumOn "a" (afterLastReset "a" [⟨1, "a", 2147483647⟩, ⟨1, "a", 1⟩]) = 2147483648 ∧
    (run Ledger.empty [⟨1, "a", 2147483647⟩, ⟨1, "a", 1⟩, ⟨3, "a", 0⟩]).2 = [-2147483648] ∧
    (main 0 0 0 ["3", "1", "a", "2147483647", "1", "a", "1", "3", "a"]).2.cout =
      [-2147483648] := by
  decide

/-- C13 as amended (closed form of every query result): from the empty
ledger, for every command sequence with `int` amounts and every query of `k`
in it, with `pre` the commands before the query, the line the query writes is
the sum of the amounts of the accumulate commands on `k` that come after the
last reset of `k` in `pre` (of all of `pre` when it has no reset of `k`),
reduced into the `int` range modulo `2^32`; it is that sum itself whenever
the sum is an `int`, and 0 when there is no such accumulate command; and the
value read is the one read when the queries of `pre` are taken out. -/
theorem query_closed_form (k : String) (pre post : List Cmd) (c : Cmd)
    (hq : c.isQuery = true) (hk : c.key = k) (hint : ∀ d ∈ pre, isInt d.amount) :
    (run Ledger.empty (pre ++ c :: post)).2[pre.countP Cmd.isQuery]? =
        some (wrapInt (sumOn k (afterLastReset k pre))) ∧
      (isInt (sumOn k (afterLastReset k pre)) →
        (run Ledger.empty (pre ++ c :: post)).2[pre.countP Cmd.isQuery]? =
          some (sumOn k (afterLastReset k pre))) ∧
      ((∀ d ∈ afterLastReset k pre, ¬ (d.tag = 1 ∧ d.key = k)) →
        (run Ledger.empty (pre ++ c :: post)).2[pre.countP Cmd.isQuery]? = some 0) ∧
      (run Ledger.empty pre).1.value k =
        (run Ledger.empty (pre.filter (fun d => !d.isQuery))).1.value k := by
  have hline := run_line_of_query Ledger.empty pre post c hq
  rw [hk, run_empty_value_closed k pre hint] at hline
  refine ⟨hline, ?_, ?_, ?_⟩
  · intro hs
    rw [hline, wrapInt_of_isInt hs]
  · intro hnone
    rw [hline, sumOn_eq_zero k _ hnone]
    rfl
  · exact run_value_filter pre Ledger.empty Ledger.empty (fun _ => rfl) hint k

/-- The second query of `1 a 5`, `3 a`, `2 a`, `1 a 4`, `1 b 9`, `1 a 3`,
`3 a`: the accumulates on `a` after the reset sum to 7. -/
theorem query_closed_form_witness :
    Cmd.isQuery ⟨3, "a", 0⟩ = true ∧
    (∀ d ∈ ([⟨1, "a", 5⟩, ⟨3, "a", 0⟩, ⟨2, "a", 0⟩, ⟨1, "a", 4⟩, ⟨1, "b", 9⟩, ⟨1, "a", 3⟩] :
      List Cmd), isInt d.amount) ∧
    isInt (sumOn "a" (afterLastReset "a"
      [⟨1, "a", 5⟩, ⟨3, "a", 0⟩, ⟨2, "a", 0⟩, ⟨1, "a", 4⟩, ⟨1, "b", 9⟩, ⟨1, "a", 3⟩])) ∧
    (run Ledger.empty
      ([⟨1, "a", 5⟩, ⟨3, "a", 0⟩, ⟨2, "a", 0⟩, ⟨1, "a", 4⟩, ⟨1, "b", 9⟩, ⟨1, "a", 3⟩] ++
        ⟨3, "a", 0⟩ :: [])).2[
        ([⟨1, "a", 5⟩, ⟨3, "a", 0⟩, ⟨2, "a", 0⟩, ⟨1, "a", 4⟩, ⟨1, "b", 9⟩, ⟨1, "a", 3⟩] :
          List Cmd).countP Cmd.isQuery]? =
      some (sumOn "a" (afterLastReset "a"
        [⟨1, "a", 5⟩, ⟨3, "a", 0⟩, ⟨2, "a", 0⟩, ⟨1, "a", 4⟩, ⟨1, "b", 9⟩, ⟨1, "a", 3⟩])) ∧
    sumOn "a" (afterLastReset "a"
      [⟨1, "a", 5⟩, ⟨3, "a", 0⟩, ⟨2, "a", 0⟩, ⟨1, "a", 4⟩, ⟨1, "b", 9⟩, ⟨1, "a", 3⟩]) = 7 ∧
    (main 0 0 0 ["7", "1", "a", "5", "3", "a", "2", "a", "1", "a", "4", "1", "b", "9",
      "1", "a", "3", "3", "a"]).2.cout = [5, 7] :=
  ⟨by decide, by decide, by decide,
    (query_closed_form "a"
      [⟨1, "a", 5⟩, ⟨3, "a", 0⟩, ⟨2, "a", 0⟩, ⟨1, "a", 4⟩, ⟨1, "b", 9⟩, ⟨1, "a", 3⟩] []
      ⟨3, "a", 0⟩ (by decide) rfl (by decide)).2.1 (by decide),
    by decide, by decide⟩

/-- C14 (frame): for every ledger, every command naming key `k`, whatever
its tag, and every key `j` other than `k`, the entry of `j` after the command
is its entry before (present iff it was present, with the same value); and a
query of a key already present leaves the whole ledger as it is, writing the
stored value. -/
theorem command_frame (L : Ledger) (t : Int) (k : String) (m : Int) :
    (∀ j, j ≠ k → (exec L t k m).1 j = L j) ∧
      (∀ j, j ≠ k → (((exec L t k m).1 j).isSome = true ↔ (L j).isSome = true)) ∧
      (∀ j v, j ≠ k → ((exec L t k m).1 j = some v ↔ L j = some v)) ∧
      (∀ v, L k = some v → t ≠ 1 → t ≠ 2 → (exec L t k m).1 = L ∧ (exec L t k m).2 = [v]) := by
  refine ⟨fun j hj => exec_fst_apply_ne L t k m j hj, ?_, ?_, ?_⟩
  · intro j hj
    rw [exec_fst_apply_ne L t k m j hj]
  · intro j v hj
    rw [exec_fst_apply_ne L t k m j hj]
  · intro v hv h1 h2
    rw [exec_other L t k m h1 h2]
    constructor
    · funext j
      rw [query_fst_apply]
      by_cases hj : j = k
      · subst hj
        simp [Ledger.value, hv]
      · simp [hj]
    · rw [query_snd]
      simp [Ledger.value, hv]

/-- An accumulate on `pear` and a query of `apple` on the ledger that holds 5
for `apple`. -/
theorem command_frame_witness :
    "apple" ≠ "pear" ∧
    (exec (Ledger.empty.store "apple" 5) 1 "pear" 2).1 "apple" =
      (Ledger.empty.store "apple" 5) "apple" ∧
    (Ledger.empty.store "apple" 5) "apple" = some 5 ∧ (3 : Int) ≠ 1 ∧ (3 : Int) ≠ 2 ∧
    ((exec (Ledger.empty.store "apple" 5) 3 "apple" 0).1 = Ledger.empty.store "apple" 5 ∧
      (exec (Ledger.empty.store "apple" 5) 3 "apple" 0).2 = [5]) :=
  ⟨by decide,
    (command_frame (Ledger.empty.store "apple" 5) 1 "pear" 2).1 "apple" (by decide),
    by decide, by decide, by decide,
    (command_frame (Ledger.empty.store "apple" 5) 3 "apple" 0).2.2.2 5 (by decide)
      (by decide) (by decide)⟩

/-! ## Key independence -/

theorem keyedOutput_snd (cmds : List Cmd) :
    ∀ L : Ledger, (keyedOutput L cmds).map Prod.snd = (run L cmds).2 := by
  induction cmds with
  | nil => intro L; rfl
  | cons c cs ih =>
    intro L
    rw [run_cons]
    show ((exec L c.tag c.key c.amount).2.map (fun v => (c.key, v)) ++
      keyedOutput (exec L c.tag c.key c.amount).1 cs).map Prod.snd = _
    rw [List.map_append, ih, List.map_map]
    simp

theorem emittedFor_nil (k : String) (L : Ledger) : emittedFor k L [] = [] := rfl

theorem emittedFor_cons (k : String) (L : Ledger) (c : Cmd) (cs : List Cmd) :
    emittedFor k L (c :: cs) =
      (if c.key = k then (exec L c.tag c.key c.amount).2 else []) ++
        emittedFor k (exec L c.tag c.key c.amount).1 cs := by
  show (((exec L c.tag c.key c.amount).2.map (fun v => (c.key, v)) ++
    keyedOutput (exec L c.tag c.key c.amount).1 cs).filter
      (fun p => decide (p.1 = k))).map Prod.snd = _
  rw [List.filter_append, List.map_append]
  congr 1
  by_cases hk : c.key = k
  · rw [if_pos hk, List.filter_eq_self.mpr (by simp [hk]), List.map_map]
    simp
  · rw [if_neg hk, List.filter_eq_nil_iff.mpr (by simp [hk])]
    rfl

/-- What the queries of `k` write depends on the starting ledger through the
entry of `k` only. -/
theorem emittedFor_congr (k : String) (cmds : List Cmd) :
    ∀ L P : Ledger, L k = P k → emittedFor k L cmds = emittedFor k P cmds := by
  induction cmds with
  | nil => intro L P _; rfl
  | cons c cs ih =>
    intro L P h
    rw [emittedFor_cons, emittedFor_cons]
    by_cases hk : c.key = k
    · have hc := exec_congr L P c.tag c.key c.amount (by rw [hk]; exact h)
      have hc2 : (exec L c.tag c.key c.amount).1 k = (exec P c.tag c.key c.amount).1 k := by
        rw [← hk]
        exact hc.2
      rw [hc.1, ih (exec L c.tag c.key c.amount).1 (exec P c.tag c.key c.amount).1 hc2]
    · have hk2 : k ≠ c.key := fun e => hk e.symm
      rw [if_neg hk, if_neg hk]
      rw [ih (exec L c.tag c.key c.amount).1 (exec P c.tag c.key c.amount).1
        (by rw [exec_fst_apply_ne L _ _ _ k hk2, exec_fst_apply_ne P _ _ _ k hk2]; exact h)]

theorem emittedFor_filter (k : String) (cmds : List Cmd) :
    ∀ L : Ledger,
      emittedFor k L cmds = emittedFor k L (cmds.filter (fun c => decide (c.key = k))) := by
  induction cmds with
  | nil => intro L; rfl
  | cons c cs ih =>
    intro L
    by_cases hk : c.key = k
    · rw [List.filter_cons_of_pos (by simp [hk]), emittedFor_cons, emittedFor_cons, ih]
    · have hk2 : k ≠ c.key := fun e => hk e.symm
      rw [List.filter_cons_of_neg (by simp [hk]), emittedFor_cons, if_neg hk,
        List.nil_append, ih]
      exact emittedFor_congr k _ _ _ (exec_fst_apply_ne L _ _ _ k hk2)

/-- C15 (key independence): for every key `k`, every starting ledger and any
two command sequences whose commands naming `k` are the same in the same
order, the values the queries of `k` write are the same in the two runs; in
particular they are those of the run on the commands naming `k` alone.  The
values are read off the output of `run`, whose lines `keyedOutput` pairs with
the key of the writing command. -/
theorem key_independence (k : String) (L : Ledger) (cmds1 cmds2 : List Cmd)
    (h : cmds1.filter (fun c => decide (c.key = k)) =
      cmds2.filter (fun c => decide (c.key = k))) :
    emittedFor k L cmds1 = emittedFor k L cmds2 ∧
      emittedFor k L cmds1 = emittedFor k L (cmds1.filter (fun c => decide (c.key = k))) ∧
      (keyedOutput L cmds1).map Prod.snd = (run L cmds1).2 ∧
      (keyedOutput L cmds2).map Prod.snd = (run L cmds2).2 := by
  refine ⟨?_, emittedFor_filter k cmds1 L, keyedOutput_snd cmds1 L, keyedOutput_snd cmds2 L⟩
  rw [emittedFor_filter k cmds1 L, emittedFor_filter k cmds2 L, h]

/-- Two runs that agree on the commands naming `a` (`1 a 5`, `3 a`, `1 a 2`,
`3 a`) and differ on `b` and `c`: the queries of `a` write 5 and 7 in both. -/
theorem key_independence_witness :
    (([⟨1, "a", 5⟩, ⟨1, "b", 9⟩, ⟨3, "a", 0⟩, ⟨3, "b", 0⟩, ⟨1, "a", 2⟩, ⟨3, "a", 0⟩] :
        List Cmd).filter (fun c => decide (c.key = "a")) =
      ([⟨2, "c", 0⟩, ⟨1, "a", 5⟩, ⟨3, "a", 0⟩, ⟨1, "a", 2⟩, ⟨3, "c", 0⟩, ⟨3, "a", 0⟩] :
        List Cmd).filter (fun c => decide (c.key = "a"))) ∧
    emittedFor "a" Ledger.empty
        [⟨1, "a", 5⟩, ⟨1, "b", 9⟩, ⟨3, "a", 0⟩, ⟨3, "b", 0⟩, ⟨1, "a", 2⟩, ⟨3, "a", 0⟩] =
      emittedFor "a" Ledger.empty
        [⟨2, "c", 0⟩, ⟨1, "a", 5⟩, ⟨3, "a", 0⟩, ⟨1, "a", 2⟩, ⟨3, "c", 0⟩, ⟨3, "a", 0⟩] ∧
    emittedFor "a" Ledger.empty
        [⟨1, "a", 5⟩, ⟨1, "b", 9⟩, ⟨3, "a", 0⟩, ⟨3, "b", 0⟩, ⟨1, "a", 2⟩, ⟨3, "a", 0⟩] =
      [5, 7] ∧
    (run Ledger.empty
        [⟨1, "a", 5⟩, ⟨1, "b", 9⟩, ⟨3, "a", 0⟩, ⟨3, "b", 0⟩, ⟨1, "a", 2⟩, ⟨3, "a", 0⟩]).2 =
      [5, 9, 7] :=
  ⟨by decide,
    (key_independence "a" Ledger.empty
      [⟨1, "a", 5⟩, ⟨1, "b", 9⟩, ⟨3, "a", 0⟩, ⟨3, "b", 0⟩, ⟨1, "a", 2⟩, ⟨3, "a", 0⟩]
      [⟨2, "c", 0⟩, ⟨1, "a", 5⟩, ⟨3, "a", 0⟩, ⟨1, "a", 2⟩, ⟨3, "c", 0⟩, ⟨3, "a", 0⟩]
      (by decide)).1,
    by decide, by decide⟩

end CppMaps
